import Mathlib

/-!
# Verification of the squint query subsystem

A shallow embedding, in Lean 4, of the parts of `squint` (src/squint/query.py,
src/squint/select.py, src/squint/result.py) that the frozen claims are about:

* the SQLite-compatible pure-iterator aggregate functions
  (`_sqlite_sortkey`, `_sqlite_min`, `_sqlite_max`, `_sqlite_sum`,
  `_sqlite_cast_as_real`),
* the selection-spec normalizer (`_normalize_columns`, `_validate_fields`),
* `BaseQuery` construction, chain methods, execution-plan building,
  the peephole optimizer `BaseQuery._optimize`, and `execute` source
  resolution,
* the lazy `Result` iterator with its bounded lookahead cache,
* the store adapter `Select._select` / `Select._select_aggregate`
  (their SQL-engine side is modelled from the spec, the SQL engine itself
  being external to the repository).

Python values are modelled by the inductive `Value` below: Python `None` is
`Value.null`, numbers (int/float interspersed, as in SQLite) are `Value.num`
over `ℚ` (exact arithmetic stands in for floating point), strings are
`Value.str`, SQLite BLOBs (`sqlite3.Binary`) are `Value.blob` as byte lists,
tuples are `Value.tup`, and any other Python object is `Value.other` with an
opaque index. Python exceptions are modelled by `Except PyErr`.
-/

deriving instance DecidableEq for Except

/-- Python exception kinds distinguished by the embedded code paths. -/
inductive PyErr where
  | valueError
  | typeError
  | indexError
  | stopIteration
  deriving DecidableEq, Repr

/-- Model of the Python values that flow through squint's query pipeline. -/
inductive Value where
  | null : Value
  | num : ℚ → Value
  | str : String → Value
  | blob : List Nat → Value
  | tup : List Value → Value
  | other : Nat → Value

mutual

/-- Structural equality of values (Python `==` on the modelled domain). -/
def Value.beq : Value → Value → Bool
  | .null, .null => true
  | .num p, .num q => p == q
  | .str a, .str b => a == b
  | .blob a, .blob b => a == b
  | .tup as, .tup bs => Value.beqList as bs
  | .other m, .other n => m == n
  | _, _ => false

/-- Elementwise equality of value lists (Python tuple `==`). -/
def Value.beqList : List Value → List Value → Bool
  | [], [] => true
  | a :: as, b :: bs => Value.beq a b && Value.beqList as bs
  | _, _ => false

end

theorem Value.beq_iff : ∀ a b : Value, (Value.beq a b = true ↔ a = b) := by
  intro a
  induction a using Value.rec
    (motive_2 := fun as => ∀ bs, (Value.beqList as bs = true ↔ as = bs)) with
  | null => intro b; cases b <;> simp [Value.beq]
  | num p => intro b; cases b <;> simp [Value.beq]
  | str s => intro b; cases b <;> simp [Value.beq]
  | blob l => intro b; cases b <;> simp [Value.beq]
  | tup xs ih =>
      intro b; cases b <;> simp [Value.beq]
      exact ih _
  | other n => intro b; cases b <;> simp [Value.beq]
  | nil => rename_i bs; cases bs <;> simp [Value.beqList]
  | cons x xs ihx ihxs =>
      rename_i bs; cases bs <;> simp [Value.beqList, ihx, ihxs]

instance : BEq Value := ⟨Value.beq⟩

instance : DecidableEq Value := fun a b =>
  decidable_of_iff (Value.beq a b = true) (Value.beq_iff a b)

instance : LawfulBEq Value where
  eq_of_beq h := (Value.beq_iff _ _).mp h
  rfl := (Value.beq_iff _ _).mpr rfl

/-! ## SQLite-compatible sort order (query.py: `_sqlite_sortkey`, lines 320-345)

`_sqlite_sortkey` maps a value to a pair `(group, payload)` and the Python
`min`/`max` builtins compare those pairs.  We embed the induced *strict
comparison* directly: `keyLtB a b` is true exactly when
`_sqlite_sortkey(a) < _sqlite_sortkey(b)`.  Within sort group 4
("unsupported type") the source compares arbitrary Python objects with
their own `<`, which can raise; that unspecified corner is modelled as:
opaque objects compare by their index, tuples are incomparable. -/

/-- Lexicographic (memcmp) byte order: Python 3 `bytes` comparison, used for
sort group 3 because `_unsortable_blob_type` is true on Python 3 and the
source converts `sqlite3.Binary` to `bytes` (query.py:341-344). -/
def bytesLt : List Nat → List Nat → Bool
  | _, [] => false
  | [], _ :: _ => true
  | a :: as, b :: bs => a < b || (a == b && bytesLt as bs)

/-- First component of `_sqlite_sortkey` (query.py:320-345): 0 = NULL,
1 = numeric, 2 = text, 3 = BLOB, 4 = unsupported type. -/
def sortgroup : Value → Nat
  | .null => 0
  | .num _ => 1
  | .str _ => 2
  | .blob _ => 3
  | .tup _ => 4
  | .other _ => 4

/-- Strict order `_sqlite_sortkey(a) < _sqlite_sortkey(b)`: tuple comparison
on `(group, payload)` — groups compare first, payloads break ties within a
group (numbers by value, text lexicographically, blobs in memcmp order). -/
def keyLtB : Value → Value → Bool
  | .null, .null => false
  | .null, _ => true
  | _, .null => false
  | .num p, .num q => decide (p < q)
  | .num _, _ => true
  | _, .num _ => false
  | .str s, .str t => decide (s < t)
  | .str _, _ => true
  | _, .str _ => false
  | .blob a, .blob b => bytesLt a b
  | .blob _, _ => true
  | _, .blob _ => false
  | .other m, .other n => decide (m < n)
  | _, _ => false

/-- `_sqlite_min` (query.py:363-370): drop the `None` values, then take the
minimum under the sort-key order; `None` when nothing remains.  Python's
`min` keeps the first element whose key is minimal, i.e. a left fold that
replaces the accumulator only on a strictly smaller key. -/
def _sqlite_min (xs : List Value) : Value :=
  match xs.filter (fun x => x != Value.null) with
  | [] => Value.null
  | y :: ys => ys.foldl (fun acc x => if keyLtB x acc then x else acc) y

/-- `_sqlite_max` (query.py:373-379): maximum under the sort-key order over
*all* values (no `None` pre-filter in the source; `None` sorts below
everything, so it can never win unless every value is `None`). -/
def _sqlite_max (xs : List Value) : Value :=
  match xs with
  | [] => Value.null
  | y :: ys => ys.foldl (fun acc x => if keyLtB acc x then x else acc) y

theorem bytesLt_trans : ∀ a b c : List Nat,
    bytesLt a b = true → bytesLt b c = true → bytesLt a c = true := by
  intro a
  induction a with
  | nil =>
      intro b c hab hbc
      cases c with
      | nil => cases b <;> simp [bytesLt] at hab hbc
      | cons z zs => simp [bytesLt]
  | cons x xs ih =>
      intro b c hab hbc
      cases b with
      | nil => simp [bytesLt] at hab
      | cons y ys =>
          cases c with
          | nil => simp [bytesLt] at hbc
          | cons z zs =>
              simp only [bytesLt, Bool.or_eq_true, Bool.and_eq_true,
                decide_eq_true_eq, beq_iff_eq] at hab hbc ⊢
              rcases hab with h1 | ⟨he1, h1⟩ <;> rcases hbc with h2 | ⟨he2, h2⟩
              · exact Or.inl (Nat.lt_trans h1 h2)
              · exact Or.inl (he2 ▸ h1)
              · exact Or.inl (he1 ▸ h2)
              · exact Or.inr ⟨he1.trans he2, ih ys zs h1 h2⟩

theorem bytesLt_irrefl : ∀ a : List Nat, bytesLt a a = false := by
  intro a
  induction a with
  | nil => rfl
  | cons x xs ih => simp [bytesLt, ih]

theorem keyLtB_irrefl : ∀ v : Value, keyLtB v v = false := by
  intro v
  cases v <;> simp [keyLtB, bytesLt_irrefl]

theorem keyLtB_trans : ∀ a b c : Value,
    keyLtB a b = true → keyLtB b c = true → keyLtB a c = true := by
  intro a b c hab hbc
  cases a <;> cases b <;> cases c <;>
    simp_all only [keyLtB, decide_eq_true_eq] <;>
    first
      | rfl
      | exact absurd hab Bool.false_ne_true
      | exact absurd hbc Bool.false_ne_true
      | exact lt_trans hab hbc
      | exact bytesLt_trans _ _ _ hab hbc

/-- `None` is never strictly greater than anything: its sort key `(0, 0)`
is the least possible. -/
theorem keyLtB_null_right : ∀ v : Value, keyLtB v Value.null = false := by
  intro v; cases v <;> rfl

/-- Every non-`None` value is strictly greater than `None`. -/
theorem keyLtB_null_left : ∀ v : Value, v ≠ Value.null → keyLtB Value.null v = true := by
  intro v hv; cases v <;> simp_all [keyLtB]

theorem minfold_eq_or_lt (ys : List Value) : ∀ y : Value,
    ys.foldl (fun acc x => if keyLtB x acc then x else acc) y = y ∨
    keyLtB (ys.foldl (fun acc x => if keyLtB x acc then x else acc) y) y = true := by
  induction ys with
  | nil => intro y; exact Or.inl rfl
  | cons x ys ih =>
      intro y
      simp only [List.foldl_cons]
      by_cases h : keyLtB x y = true
      · rw [if_pos h]
        rcases ih x with h2 | h2
        · right; rw [h2]; exact h
        · exact Or.inr (keyLtB_trans _ _ _ h2 h)
      · rw [if_neg h]
        exact ih y

theorem minfold_mem (ys : List Value) : ∀ y : Value,
    ys.foldl (fun acc x => if keyLtB x acc then x else acc) y ∈ y :: ys := by
  induction ys with
  | nil => intro y; simp
  | cons x ys ih =>
      intro y
      simp only [List.foldl_cons]
      by_cases h : keyLtB x y = true
      · rw [if_pos h]
        have := ih x
        simp only [List.mem_cons] at this ⊢
        tauto
      · rw [if_neg h]
        have := ih y
        simp only [List.mem_cons] at this ⊢
        tauto

theorem minfold_not_lt (ys : List Value) : ∀ y : Value, ∀ v ∈ y :: ys,
    keyLtB v (ys.foldl (fun acc x => if keyLtB x acc then x else acc) y) = false := by
  induction ys with
  | nil =>
      intro y v hv
      simp only [List.mem_cons, List.not_mem_nil, or_false] at hv
      subst hv
      simp [List.foldl_nil, keyLtB_irrefl]
  | cons x ys ih =>
      intro y v hv
      simp only [List.foldl_cons]
      by_cases h : keyLtB x y = true
      · rw [if_pos h]
        rcases List.mem_cons.mp hv with rfl | hv2
        · -- v = y; the accumulator became x with keyLtB x y
          by_contra hcon
          have hlt : keyLtB v (ys.foldl (fun acc x => if keyLtB x acc then x else acc) x) = true := by
            cases hb : keyLtB v (ys.foldl (fun acc x => if keyLtB x acc then x else acc) x) with
            | true => rfl
            | false => exact absurd hb hcon
          rcases minfold_eq_or_lt ys x with h2 | h2
          · rw [h2] at hlt
            have := keyLtB_trans _ _ _ h hlt
            simp [keyLtB_irrefl] at this
          · have h3 := keyLtB_trans _ _ _ hlt h2
            have := keyLtB_trans _ _ _ h h3
            simp [keyLtB_irrefl] at this
        · rcases List.mem_cons.mp hv2 with rfl | hv3
          · exact ih _ _ (by simp)
          · exact ih _ _ (by simp [hv3])
      · rw [if_neg h]
        have hxB : keyLtB x y = false := by
          cases hb : keyLtB x y with
          | true => exact absurd hb h
          | false => rfl
        rcases List.mem_cons.mp hv with rfl | hv2
        · exact ih _ _ (by simp)
        · rcases List.mem_cons.mp hv2 with rfl | hv3
          · -- v = x, the discarded element
            by_contra hcon
            have hlt : keyLtB v (ys.foldl (fun acc x => if keyLtB x acc then x else acc) y) = true := by
              cases hb : keyLtB v (ys.foldl (fun acc x => if keyLtB x acc then x else acc) y) with
              | true => rfl
              | false => exact absurd hb hcon
            rcases minfold_eq_or_lt ys y with h2 | h2
            · rw [h2] at hlt
              rw [hlt] at hxB
              simp at hxB
            · have h3 := keyLtB_trans _ _ _ hlt h2
              rw [h3] at hxB
              simp at hxB
          · exact ih _ _ (by simp [hv3])

theorem maxfold_eq_or_gt (ys : List Value) : ∀ y : Value,
    ys.foldl (fun acc x => if keyLtB acc x then x else acc) y = y ∨
    keyLtB y (ys.foldl (fun acc x => if keyLtB acc x then x else acc) y) = true := by
  induction ys with
  | nil => intro y; exact Or.inl rfl
  | cons x ys ih =>
      intro y
      simp only [List.foldl_cons]
      by_cases h : keyLtB y x = true
      · rw [if_pos h]
        rcases ih x with h2 | h2
        · right; rw [h2]; exact h
        · exact Or.inr (keyLtB_trans _ _ _ h h2)
      · rw [if_neg h]
        exact ih y

theorem maxfold_mem (ys : List Value) : ∀ y : Value,
    ys.foldl (fun acc x => if keyLtB acc x then x else acc) y ∈ y :: ys := by
  induction ys with
  | nil => intro y; simp
  | cons x ys ih =>
      intro y
      simp only [List.foldl_cons]
      by_cases h : keyLtB y x = true
      · rw [if_pos h]
        have := ih x
        simp only [List.mem_cons] at this ⊢
        tauto
      · rw [if_neg h]
        have := ih y
        simp only [List.mem_cons] at this ⊢
        tauto

theorem maxfold_not_gt (ys : List Value) : ∀ y : Value, ∀ v ∈ y :: ys,
    keyLtB (ys.foldl (fun acc x => if keyLtB acc x then x else acc) y) v = false := by
  induction ys with
  | nil =>
      intro y v hv
      simp only [List.mem_cons, List.not_mem_nil, or_false] at hv
      subst hv
      simp [List.foldl_nil, keyLtB_irrefl]
  | cons x ys ih =>
      intro y v hv
      simp only [List.foldl_cons]
      by_cases h : keyLtB y x = true
      · rw [if_pos h]
        rcases List.mem_cons.mp hv with rfl | hv2
        · -- v = y, the discarded accumulator
          by_contra hcon
          have hlt : keyLtB (ys.foldl (fun acc x => if keyLtB acc x then x else acc) x) v = true := by
            cases hb : keyLtB (ys.foldl (fun acc x => if keyLtB acc x then x else acc) x) v with
            | true => rfl
            | false => exact absurd hb hcon
          rcases maxfold_eq_or_gt ys x with h2 | h2
          · rw [h2] at hlt
            have := keyLtB_trans _ _ _ hlt h
            simp [keyLtB_irrefl] at this
          · have h3 := keyLtB_trans _ _ _ h2 hlt
            have := keyLtB_trans _ _ _ h3 h
            simp [keyLtB_irrefl] at this
        · rcases List.mem_cons.mp hv2 with rfl | hv3
          · exact ih _ _ (by simp)
          · exact ih _ _ (by simp [hv3])
      · rw [if_neg h]
        have hxB : keyLtB y x = false := by
          cases hb : keyLtB y x with
          | true => exact absurd hb h
          | false => rfl
        rcases List.mem_cons.mp hv with rfl | hv2
        · exact ih _ _ (by simp)
        · rcases List.mem_cons.mp hv2 with rfl | hv3
          · by_contra hcon
            have hlt : keyLtB (ys.foldl (fun acc x => if keyLtB acc x then x else acc) y) v = true := by
              cases hb : keyLtB (ys.foldl (fun acc x => if keyLtB acc x then x else acc) y) v with
              | true => rfl
              | false => exact absurd hb hcon
            rcases maxfold_eq_or_gt ys y with h2 | h2
            · rw [h2] at hlt
              rw [hlt] at hxB
              simp at hxB
            · have h3 := keyLtB_trans _ _ _ h2 hlt
              rw [h3] at hxB
              simp at hxB
          · exact ih _ _ (by simp [hv3])

theorem maxfold_filter_null (ys : List Value) : ∀ y : Value,
    ys.foldl (fun acc x => if keyLtB acc x then x else acc) y =
    (ys.filter (fun x => x != Value.null)).foldl
      (fun acc x => if keyLtB acc x then x else acc) y := by
  induction ys with
  | nil => intro y; rfl
  | cons z zs ih =>
      intro y
      simp only [List.foldl_cons, List.filter_cons]
      by_cases hz : z = Value.null
      · subst hz
        have h1 : (Value.null != Value.null) = false := by simp
        rw [h1]
        simp only [Bool.false_eq_true, if_false]
        rw [keyLtB_null_right]
        simp only [Bool.false_eq_true, if_false]
        exact ih y
      · have h1 : (z != Value.null) = true := by simp [hz]
        rw [h1]
        simp only [if_true, List.foldl_cons]
        exact ih _

theorem _sqlite_min_filter (xs : List Value) :
    _sqlite_min (xs.filter (fun x => x != Value.null)) = _sqlite_min xs := by
  unfold _sqlite_min
  rw [List.filter_filter]
  simp

theorem _sqlite_max_filter (xs : List Value) :
    _sqlite_max xs = _sqlite_max (xs.filter (fun x => x != Value.null)) := by
  cases xs with
  | nil => rfl
  | cons y ys =>
      by_cases hy : y = Value.null
      · subst hy
        simp only [_sqlite_max, List.filter_cons]
        have h1 : (Value.null != Value.null) = false := by simp
        rw [h1]
        simp only [Bool.false_eq_true, if_false]
        rw [maxfold_filter_null]
        cases hf : ys.filter (fun x => x != Value.null) with
        | nil => rfl
        | cons z zs =>
            have hz : z ≠ Value.null := by
              have hmem : z ∈ ys.filter (fun x => x != Value.null) := by
                rw [hf]; exact List.mem_cons_self _ _
              have := List.of_mem_filter hmem
              simpa using this
            simp only [List.foldl_cons]
            rw [keyLtB_null_left z hz]
            simp
      · simp only [_sqlite_max, List.filter_cons]
        have h1 : (y != Value.null) = true := by simp [hy]
        rw [h1]
        simp only [if_true]
        exact maxfold_filter_null ys y

theorem filter_null_eq_nil {xs : List Value} (h : ∀ v ∈ xs, v = Value.null) :
    xs.filter (fun x => x != Value.null) = [] := by
  rw [List.filter_eq_nil_iff]
  intro a ha
  simp [h a ha]

theorem keyLtB_of_group_lt : ∀ a b : Value, sortgroup a < sortgroup b → keyLtB a b = true := by
  intro a b h
  cases a <;> cases b <;> first
    | rfl
    | (exfalso; simp only [sortgroup] at h; omega)

/-- **C2.** For every iterable of values, the pure-iterator `min` and `max`
ignore null (`None`) inputs and compare the remaining values by the
four-group sort key — group 0 = null, group 1 = numeric (compared by value),
group 2 = text (lexicographic), group 3 = binary/blob (raw byte order),
group 4 = anything else — and `min`/`max` over an all-null (or empty) input
return null rather than raising. -/
theorem C2_sqlite_min_max (xs : List Value) :
    (_sqlite_min xs = _sqlite_min (xs.filter (fun x => x != Value.null))
      ∧ _sqlite_max xs = _sqlite_max (xs.filter (fun x => x != Value.null)))
    ∧ ((∀ v ∈ xs, v = Value.null) →
        _sqlite_min xs = Value.null ∧ _sqlite_max xs = Value.null)
    ∧ (_sqlite_min ([] : List Value) = Value.null
        ∧ _sqlite_max ([] : List Value) = Value.null)
    ∧ (_sqlite_min xs = Value.null ∨
        (_sqlite_min xs ∈ xs ∧ _sqlite_min xs ≠ Value.null
          ∧ ∀ v ∈ xs, v ≠ Value.null → keyLtB v (_sqlite_min xs) = false))
    ∧ (_sqlite_max xs = Value.null ∨
        (_sqlite_max xs ∈ xs ∧ ∀ v ∈ xs, keyLtB (_sqlite_max xs) v = false))
    ∧ (sortgroup Value.null = 0 ∧ (∀ q, sortgroup (Value.num q) = 1)
        ∧ (∀ s, sortgroup (Value.str s) = 2)
        ∧ (∀ bs, sortgroup (Value.blob bs) = 3)
        ∧ (∀ vs, sortgroup (Value.tup vs) = 4)
        ∧ (∀ n, sortgroup (Value.other n) = 4))
    ∧ ((∀ p q, keyLtB (Value.num p) (Value.num q) = decide (p < q))
        ∧ (∀ s t, keyLtB (Value.str s) (Value.str t) = decide (s < t))
        ∧ (∀ a b, keyLtB (Value.blob a) (Value.blob b) = bytesLt a b)
        ∧ (∀ a b, sortgroup a < sortgroup b → keyLtB a b = true)) := by
  refine ⟨⟨(_sqlite_min_filter xs).symm, _sqlite_max_filter xs⟩, ?_, ⟨rfl, rfl⟩,
    ?_, ?_,
    ⟨rfl, fun q => rfl, fun s => rfl, fun bs => rfl, fun vs => rfl, fun n => rfl⟩,
    ⟨fun p q => rfl, fun s t => rfl, fun a b => rfl, keyLtB_of_group_lt⟩⟩
  · -- all-null input
    intro h
    constructor
    · simp [_sqlite_min, filter_null_eq_nil h]
    · rw [_sqlite_max_filter, filter_null_eq_nil h]
      rfl
  · -- characterization of the minimum
    cases hf : xs.filter (fun x => x != Value.null) with
    | nil => left; simp [_sqlite_min, hf]
    | cons y ys =>
        right
        have hmin : _sqlite_min xs
            = ys.foldl (fun acc x => if keyLtB x acc then x else acc) y := by
          simp [_sqlite_min, hf]
        have hmemf : _sqlite_min xs ∈ xs.filter (fun x => x != Value.null) := by
          rw [hf, hmin]; exact minfold_mem ys y
        refine ⟨List.mem_of_mem_filter hmemf, ?_, ?_⟩
        · have := List.of_mem_filter hmemf
          simpa using this
        · intro v hv hvnull
          have hvf : v ∈ xs.filter (fun x => x != Value.null) :=
            List.mem_filter.mpr ⟨hv, by simp [hvnull]⟩
          rw [hf] at hvf
          rw [hmin]
          exact minfold_not_lt ys y v hvf
  · -- characterization of the maximum
    cases xs with
    | nil => left; rfl
    | cons y ys =>
        right
        have hmax : _sqlite_max (y :: ys)
            = ys.foldl (fun acc x => if keyLtB acc x then x else acc) y := rfl
        refine ⟨?_, ?_⟩
        · rw [hmax]; exact maxfold_mem ys y
        · intro v hv
          rw [hmax]
          exact maxfold_not_gt ys y v hv

/-- Witness for C2 at concrete inputs: a mixed-type list whose minimum is the
numeric value and whose maximum is the blob, and an all-null list on which
both aggregates return null. -/
theorem C2_sqlite_min_max_witness :
    (_sqlite_min [Value.null, Value.num 1, Value.str "a", Value.blob [0]]
        = Value.num 1
      ∧ _sqlite_max [Value.null, Value.num 1, Value.str "a", Value.blob [0]]
        = Value.blob [0])
    ∧ (_sqlite_min [Value.null, Value.null] = Value.null
        ∧ _sqlite_max [Value.null, Value.null] = Value.null) :=
  ⟨⟨by decide, by decide⟩,
    (C2_sqlite_min_max [Value.null, Value.null]).2.1 (by decide)⟩

/-! ## Pure-iterator SUM (query.py: `_sqlite_cast_as_real`, `_sqlite_sum`) -/

/-- Digit run to a natural number (helper for the `float(str)` model). -/
def digitsToNat (ds : List Char) : Nat :=
  ds.foldl (fun n c => n * 10 + (c.toNat - 48)) 0

/-- Modelled from the spec: the Python builtin `float(string)` called by
`_sqlite_cast_as_real` is not part of the repository.  We model the common
decimal forms `[+-]digits[.digits]` / `[+-].digits`; any other string is a
`ValueError` in Python, modelled as `none`. -/
def parsePyFloat (s : String) : Option ℚ :=
  let go : List Char → Option ℚ := fun cs =>
    let intPart := cs.takeWhile (fun c => c.isDigit)
    let rest := cs.dropWhile (fun c => c.isDigit)
    match rest with
    | [] => if intPart.isEmpty then none else some (digitsToNat intPart)
    | '.' :: frac =>
        if frac.all (fun c => c.isDigit) && !(intPart.isEmpty && frac.isEmpty) then
          some ((digitsToNat intPart : ℚ)
            + (digitsToNat frac : ℚ) / ((10 : ℚ) ^ frac.length))
        else none
    | _ => none
  match s.data with
  | '-' :: cs => (go cs).map (fun q => -q)
  | '+' :: cs => go cs
  | cs => go cs

/-- `_sqlite_cast_as_real` (query.py:280-291): `float(value)` with `ValueError`
(a non-numeric string) caught and turned into `0.0`.  `float` of `None`, a
blob, a tuple or an arbitrary object raises `TypeError`, which this function
does not catch. -/
def _sqlite_cast_as_real : Value → Except PyErr ℚ
  | .num q => .ok q
  | .str s => .ok ((parsePyFloat s).getD 0)
  | _ => .error .typeError

/-- `_sqlite_sum` (query.py:294-305): drop the `None` values, cast the rest
with `_sqlite_cast_as_real`, return `None` when no value remains (SQLite:
"If there are no non-NULL input rows then sum() returns NULL"), otherwise
the running total started from the first cast value. -/
def _sqlite_sum (xs : List Value) : Except PyErr (Option ℚ) :=
  match (xs.filter (fun x => x != Value.null)).mapM _sqlite_cast_as_real with
  | .error e => .error e
  | .ok [] => .ok none
  | .ok (c :: cs) => .ok (some (cs.foldl (· + ·) c))

theorem foldl_add_eq_sum : ∀ (cs : List ℚ) (c : ℚ), cs.foldl (· + ·) c = c + cs.sum := by
  intro cs
  induction cs with
  | nil => intro c; simp
  | cons x xs ih =>
      intro c
      simp only [List.foldl_cons, List.sum_cons, ih]
      ring

/-- **C3.** For every iterable of values, the pure-iterator sum casts each
non-null value to floating point, casting non-numeric strings to 0.0, and
returns null (not 0) when there are zero non-null inputs, including the
empty iterable. -/
theorem C3_sqlite_sum (xs : List Value) :
    (∀ rs : List ℚ,
        (xs.filter (fun x => x != Value.null)).mapM _sqlite_cast_as_real = .ok rs →
        _sqlite_sum xs = .ok (if rs.isEmpty then none else some rs.sum))
    ∧ ((∀ v ∈ xs, v = Value.null) → _sqlite_sum xs = .ok (none : Option ℚ))
    ∧ _sqlite_sum ([] : List Value) = .ok (none : Option ℚ)
    ∧ (∀ s, parsePyFloat s = none → _sqlite_cast_as_real (Value.str s) = .ok 0)
    ∧ (∀ q, _sqlite_cast_as_real (Value.num q) = .ok q) := by
  refine ⟨?_, ?_, rfl, ?_, fun q => rfl⟩
  · intro rs hrs
    unfold _sqlite_sum
    rw [hrs]
    cases rs with
    | nil => rfl
    | cons c cs =>
        simp [List.isEmpty_cons, List.sum_cons, foldl_add_eq_sum]
  · intro h
    unfold _sqlite_sum
    rw [filter_null_eq_nil h]
    rfl
  · intro s hs
    simp [_sqlite_cast_as_real, hs]

/-- Witness for C3: a concrete mixed list (`None` skipped, the non-numeric
string "abc" cast to 0.0, the numeric string "15" parsed), the all-`None`
list, and the empty list, all evaluated. -/
theorem C3_sqlite_sum_witness :
    _sqlite_sum [Value.null, Value.num 2, Value.str "abc", Value.str "15"]
      = .ok (some (17 : ℚ))
    ∧ _sqlite_sum [Value.null, Value.null] = .ok (none : Option ℚ)
    ∧ _sqlite_sum ([] : List Value) = .ok (none : Option ℚ) :=
  ⟨by
      have h : _sqlite_sum [Value.null, Value.num 2, Value.str "abc", Value.str "15"]
          = .ok (some ((2 : ℚ) + 0 + ((15 : ℕ) : ℚ))) := rfl
      rw [h]; norm_num,
    (C3_sqlite_sum [Value.null, Value.null]).2.1 (by decide),
    (C3_sqlite_sum []).2.2.1⟩

/-! ## Selection-spec normalization (query.py: `_validate_fields` 401-408,
`_normalize_columns` 411-440)

A *columns* selection is an arbitrary Python object; the shapes the
normalizer inspects are modelled by `Col`: strings, lists, tuples, sets
(with their iteration order), mappings (as association lists) and
non-sized objects such as integers. -/

/-- Model of the Python objects passed as a *columns* selection. -/
inductive Col where
  | str (s : String)
  | list (xs : List Col)
  | tupl (xs : List Col)
  | set (xs : List Col)
  | map (es : List (Col × Col))
  | intVal (n : Int)

/-- `isinstance(columns, Sized)`: false only for objects without `__len__`. -/
def Col.isSized : Col → Bool
  | .intVal _ => false
  | _ => true

/-- `isinstance(-, Mapping)`. -/
def Col.isMapC : Col → Bool
  | .map _ => true
  | _ => false

/-- `isinstance(-, str)`. -/
def Col.isStrC : Col → Bool
  | .str _ => true
  | _ => false

/-- Python `len` (`TypeError` on objects without `__len__`). -/
def Col.pyLen : Col → Except PyErr Nat
  | .str s => .ok s.length
  | .list xs => .ok xs.length
  | .tupl xs => .ok xs.length
  | .set xs => .ok xs.length
  | .map es => .ok es.length
  | .intVal _ => .error .typeError

/-- `tuple(x)[0]`: first element of an iterable (`IndexError` when empty,
`TypeError` when not iterable).  Iterating a string yields one-character
strings; iterating a mapping yields its keys. -/
def Col.tupleFirst : Col → Except PyErr Col
  | .str s =>
      match s.data with
      | [] => .error .indexError
      | c :: _ => .ok (.str (String.mk [c]))
  | .list xs =>
      match xs with
      | [] => .error .indexError
      | x :: _ => .ok x
  | .tupl xs =>
      match xs with
      | [] => .error .indexError
      | x :: _ => .ok x
  | .set xs =>
      match xs with
      | [] => .error .indexError
      | x :: _ => .ok x
  | .map es =>
      match es with
      | [] => .error .indexError
      | e :: _ => .ok e.1
  | .intVal _ => .error .typeError

/-- Element loop of `_validate_fields`: every element must be a string,
otherwise `ValueError`. -/
def validateFieldList : List Col → Except PyErr Unit
  | [] => .ok ()
  | .str _ :: rest => validateFieldList rest
  | _ :: _ => .error .valueError

/-- `_validate_fields` (query.py:401-408): a bare string passes; otherwise
iterate (`TypeError` if not iterable; a mapping iterates over its keys) and
require every element to be a string. -/
def _validate_fields : Col → Except PyErr Unit
  | .str _ => .ok ()
  | .list xs => validateFieldList xs
  | .tupl xs => validateFieldList xs
  | .set xs => validateFieldList xs
  | .map es => validateFieldList (es.map Prod.fst)
  | .intVal _ => .error .typeError

/-- `_normalize_columns` (query.py:411-440), with Python's evaluation order:
sized check; for mappings: single-entry check, nested-mapping check,
rebuild decision (`len(value)` may raise), key validation, `tuple(value)[0]`
(of the *original* value), first-element validation; for everything else:
wrap decision, `tuple(columns)[0]` of the (possibly wrapped) selection,
first-element validation. -/
def _normalize_columns (columns : Col) : Except PyErr Col :=
  if ¬ columns.isSized then .error .valueError
  else
    match columns with
    | .map es =>
        match es with
        | [(key, value)] =>
            if value.isMapC then .error .valueError
            else
              match value.pyLen with
              | .error e => .error e
              | .ok vlen =>
                  let rebuilt := if value.isStrC || decide (vlen > 1) then
                      Col.map [(key, Col.list [value])]
                    else Col.map [(key, value)]
                  match _validate_fields key with
                  | .error e => .error e
                  | .ok _ =>
                      match value.tupleFirst with
                      | .error e => .error e
                      | .ok v0 =>
                          match _validate_fields v0 with
                          | .error e => .error e
                          | .ok _ => .ok rebuilt
        | _ => .error .valueError
    | _ =>
        match columns.pyLen with
        | .error e => .error e
        | .ok clen =>
            let wrapped := if columns.isStrC || decide (clen > 1) then
                Col.list [columns]
              else columns
            match wrapped.tupleFirst with
            | .error e => .error e
            | .ok c0 =>
                match _validate_fields c0 with
                | .error e => .error e
                | .ok _ => .ok wrapped

/-- Containers holding only bare field-name strings. -/
def allStrCols : List Col → Bool
  | [] => true
  | .str _ :: rest => allStrCols rest
  | _ :: _ => false

/-- A selection element that validates: a field name, or an all-string
field tuple/list/set. -/
def wfElem : Col → Bool
  | .str _ => true
  | .list ys => allStrCols ys
  | .tupl ys => allStrCols ys
  | .set ys => allStrCols ys
  | _ => false

/-- A container payload that normalizes stably: a single element that
validates, or (for multi-element containers) only field-name strings. -/
def wfPayload : List Col → Bool
  | [] => false
  | [x] => wfElem x
  | xs => allStrCols xs

/-- Grouping keys: a field name or a tuple of field names. -/
def wfKey : Col → Bool
  | .str _ => true
  | .tupl ks => allStrCols ks
  | _ => false

/-- Mapping values: a non-empty field name or a container with a
well-formed payload. -/
def wfMapVal : Col → Bool
  | .str s => !s.isEmpty
  | .list xs => wfPayload xs
  | .tupl xs => wfPayload xs
  | .set xs => wfPayload xs
  | _ => false

/-- Well-formed selection specs: a bare field name, a homogeneous
sequence/set of fields (or a singleton container of a field-tuple), or a
single-key mapping of such. -/
def wfSpec : Col → Bool
  | .str _ => true
  | .list xs => wfPayload xs
  | .tupl xs => wfPayload xs
  | .set xs => wfPayload xs
  | .map [(k, v)] => wfKey k && wfMapVal v
  | _ => false

theorem validateFieldList_of_allStr : ∀ xs : List Col, allStrCols xs = true →
    validateFieldList xs = .ok () := by
  intro xs h
  induction xs with
  | nil => rfl
  | cons x rest ih => cases x <;> simp_all [allStrCols, validateFieldList]

theorem wfKey_validate (k : Col) (h : wfKey k = true) : _validate_fields k = .ok () := by
  cases k <;> simp_all [wfKey, _validate_fields]
  exact validateFieldList_of_allStr _ h

theorem wfElem_validate (x : Col) (h : wfElem x = true) : _validate_fields x = .ok () := by
  cases x <;> simp_all [wfElem, _validate_fields] <;>
    exact validateFieldList_of_allStr _ h

theorem normalize_flat_fixed (x c : Col)
    (hc : c = Col.list [x] ∨ c = Col.tupl [x] ∨ c = Col.set [x])
    (hx : _validate_fields x = .ok ()) : _normalize_columns c = .ok c := by
  rcases hc with rfl | rfl | rfl <;>
    simp [_normalize_columns, Col.isSized, Col.pyLen, Col.isStrC, Col.tupleFirst, hx]

theorem normalize_map_fixed (k x v : Col)
    (hv : v = Col.list [x] ∨ v = Col.tupl [x] ∨ v = Col.set [x])
    (hk : _validate_fields k = .ok ())
    (hx : _validate_fields x = .ok ()) :
    _normalize_columns (Col.map [(k, v)]) = .ok (Col.map [(k, v)]) := by
  rcases hv with rfl | rfl | rfl <;>
    simp [_normalize_columns, Col.isSized, Col.isMapC, Col.pyLen, Col.isStrC,
      Col.tupleFirst, hk, hx]

/-- **C4 (amended).** For every selection spec accepted by the normalizer in
which every multi-element field container holds only field-name strings
(bare name, homogeneous sequence/set of fields, a singleton container of a
field-tuple, or a single-key mapping of such), normalization is idempotent:
`_normalize_columns (_normalize_columns s) = _normalize_columns s`. -/
theorem C4_normalize_idempotent (c r : Col) (hwf : wfSpec c = true)
    (h : _normalize_columns c = .ok r) : _normalize_columns r = .ok r := by
  cases c with
  | intVal n => simp [wfSpec] at hwf
  | str s =>
      have hc : _normalize_columns (Col.str s) = .ok (Col.list [Col.str s]) := by
        simp [_normalize_columns, Col.isSized, Col.pyLen, Col.isStrC,
          Col.tupleFirst, _validate_fields]
      rw [hc] at h
      obtain rfl : Col.list [Col.str s] = r := Except.ok.inj h
      exact normalize_flat_fixed (Col.str s) _ (Or.inl rfl) rfl
  | list xs =>
      simp only [wfSpec] at hwf
      match xs, hwf with
      | [x], hwf =>
          have hfix := normalize_flat_fixed x (Col.list [x]) (Or.inl rfl)
            (wfElem_validate x (by simpa [wfPayload] using hwf))
          rw [hfix] at h
          obtain rfl : Col.list [x] = r := Except.ok.inj h
          exact hfix
      | x1 :: x2 :: rest, hwf =>
          have hall : allStrCols (x1 :: x2 :: rest) = true := by
            simpa [wfPayload] using hwf
          have hval : _validate_fields (Col.list (x1 :: x2 :: rest)) = .ok () :=
            validateFieldList_of_allStr _ hall
          have hlen : decide ((x1 :: x2 :: rest).length > 1) = true := by
            simp only [decide_eq_true_eq, List.length_cons]; omega
          have hc : _normalize_columns (Col.list (x1 :: x2 :: rest))
              = .ok (Col.list [Col.list (x1 :: x2 :: rest)]) := by
            simp [_normalize_columns, Col.isSized, Col.pyLen, Col.isStrC, hlen,
              Col.tupleFirst, hval]
          rw [hc] at h
          obtain rfl : Col.list [Col.list (x1 :: x2 :: rest)] = r := Except.ok.inj h
          exact normalize_flat_fixed _ _ (Or.inl rfl) hval
  | tupl xs =>
      simp only [wfSpec] at hwf
      match xs, hwf with
      | [x], hwf =>
          have hfix := normalize_flat_fixed x (Col.tupl [x]) (Or.inr (Or.inl rfl))
            (wfElem_validate x (by simpa [wfPayload] using hwf))
          rw [hfix] at h
          obtain rfl : Col.tupl [x] = r := Except.ok.inj h
          exact hfix
      | x1 :: x2 :: rest, hwf =>
          have hall : allStrCols (x1 :: x2 :: rest) = true := by
            simpa [wfPayload] using hwf
          have hval : _validate_fields (Col.tupl (x1 :: x2 :: rest)) = .ok () :=
            validateFieldList_of_allStr _ hall
          have hlen : decide ((x1 :: x2 :: rest).length > 1) = true := by
            simp only [decide_eq_true_eq, List.length_cons]; omega
          have hc : _normalize_columns (Col.tupl (x1 :: x2 :: rest))
              = .ok (Col.list [Col.tupl (x1 :: x2 :: rest)]) := by
            simp [_normalize_columns, Col.isSized, Col.pyLen, Col.isStrC, hlen,
              Col.tupleFirst, hval]
          rw [hc] at h
          obtain rfl : Col.list [Col.tupl (x1 :: x2 :: rest)] = r := Except.ok.inj h
          exact normalize_flat_fixed _ _ (Or.inl rfl) hval
  | set xs =>
      simp only [wfSpec] at hwf
      match xs, hwf with
      | [x], hwf =>
          have hfix := normalize_flat_fixed x (Col.set [x]) (Or.inr (Or.inr rfl))
            (wfElem_validate x (by simpa [wfPayload] using hwf))
          rw [hfix] at h
          obtain rfl : Col.set [x] = r := Except.ok.inj h
          exact hfix
      | x1 :: x2 :: rest, hwf =>
          have hall : allStrCols (x1 :: x2 :: rest) = true := by
            simpa [wfPayload] using hwf
          have hval : _validate_fields (Col.set (x1 :: x2 :: rest)) = .ok () :=
            validateFieldList_of_allStr _ hall
          have hlen : decide ((x1 :: x2 :: rest).length > 1) = true := by
            simp only [decide_eq_true_eq, List.length_cons]; omega
          have hc : _normalize_columns (Col.set (x1 :: x2 :: rest))
              = .ok (Col.list [Col.set (x1 :: x2 :: rest)]) := by
            simp [_normalize_columns, Col.isSized, Col.pyLen, Col.isStrC, hlen,
              Col.tupleFirst, hval]
          rw [hc] at h
          obtain rfl : Col.list [Col.set (x1 :: x2 :: rest)] = r := Except.ok.inj h
          exact normalize_flat_fixed _ _ (Or.inl rfl) hval
  | map es =>
      match es, hwf with
      | [(k, v)], hwf =>
          simp only [wfSpec, Bool.and_eq_true] at hwf
          obtain ⟨hk, hv⟩ := hwf
          have hkval := wfKey_validate k hk
          cases v with
          | str s =>
              have hne : s.isEmpty = false := by
                simp only [wfMapVal, Bool.not_eq_true'] at hv
                exact hv
              obtain ⟨c0, cs, hdata⟩ : ∃ c0 cs, s.data = c0 :: cs := by
                cases s with
                | mk data =>
                    cases data with
                    | nil => exact absurd hne (by decide)
                    | cons c0 cs => exact ⟨c0, cs, rfl⟩
              have hc : _normalize_columns (Col.map [(k, Col.str s)])
                  = .ok (Col.map [(k, Col.list [Col.str s])]) := by
                have hv0 : _validate_fields (Col.str (String.mk [c0])) = .ok () := rfl
                simp [_normalize_columns, Col.isSized, Col.isMapC, Col.pyLen,
                  Col.isStrC, Col.tupleFirst, hdata, hkval, hv0]
              rw [hc] at h
              obtain rfl : Col.map [(k, Col.list [Col.str s])] = r := Except.ok.inj h
              exact normalize_map_fixed k (Col.str s) _ (Or.inl rfl) hkval rfl
          | list vs =>
              simp only [wfMapVal] at hv
              match vs, hv with
              | [x], hv =>
                  have hfix := normalize_map_fixed k x (Col.list [x]) (Or.inl rfl)
                    hkval (wfElem_validate x (by simpa [wfPayload] using hv))
                  rw [hfix] at h
                  obtain rfl : Col.map [(k, Col.list [x])] = r := Except.ok.inj h
                  exact hfix
              | x1 :: x2 :: rest, hv =>
                  have hall : allStrCols (x1 :: x2 :: rest) = true := by
                    simpa [wfPayload] using hv
                  have hv0 : _validate_fields x1 = .ok () := by
                    cases x1 <;> simp_all [allStrCols, _validate_fields]
                  have hval : _validate_fields (Col.list (x1 :: x2 :: rest)) = .ok () :=
                    validateFieldList_of_allStr _ hall
                  have hlen : decide ((x1 :: x2 :: rest).length > 1) = true := by
                    simp only [decide_eq_true_eq, List.length_cons]; omega
                  have hc : _normalize_columns (Col.map [(k, Col.list (x1 :: x2 :: rest))])
                      = .ok (Col.map [(k, Col.list [Col.list (x1 :: x2 :: rest)])]) := by
                    simp [_normalize_columns, Col.isSized, Col.isMapC, Col.pyLen,
                      Col.isStrC, hlen, Col.tupleFirst, hkval, hv0]
                  rw [hc] at h
                  obtain rfl : Col.map [(k, Col.list [Col.list (x1 :: x2 :: rest)])] = r :=
                    Except.ok.inj h
                  exact normalize_map_fixed k _ _ (Or.inl rfl) hkval hval
              | [], hv => simp [wfPayload] at hv
          | tupl vs =>
              simp only [wfMapVal] at hv
              match vs, hv with
              | [x], hv =>
                  have hfix := normalize_map_fixed k x (Col.tupl [x]) (Or.inr (Or.inl rfl))
                    hkval (wfElem_validate x (by simpa [wfPayload] using hv))
                  rw [hfix] at h
                  obtain rfl : Col.map [(k, Col.tupl [x])] = r := Except.ok.inj h
                  exact hfix
              | x1 :: x2 :: rest, hv =>
                  have hall : allStrCols (x1 :: x2 :: rest) = true := by
                    simpa [wfPayload] using hv
                  have hv0 : _validate_fields x1 = .ok () := by
                    cases x1 <;> simp_all [allStrCols, _validate_fields]
                  have hval : _validate_fields (Col.tupl (x1 :: x2 :: rest)) = .ok () :=
                    validateFieldList_of_allStr _ hall
                  have hlen : decide ((x1 :: x2 :: rest).length > 1) = true := by
                    simp only [decide_eq_true_eq, List.length_cons]; omega
                  have hc : _normalize_columns (Col.map [(k, Col.tupl (x1 :: x2 :: rest))])
                      = .ok (Col.map [(k, Col.list [Col.tupl (x1 :: x2 :: rest)])]) := by
                    simp [_normalize_columns, Col.isSized, Col.isMapC, Col.pyLen,
                      Col.isStrC, hlen, Col.tupleFirst, hkval, hv0]
                  rw [hc] at h
                  obtain rfl : Col.map [(k, Col.list [Col.tupl (x1 :: x2 :: rest)])] = r :=
                    Except.ok.inj h
                  exact normalize_map_fixed k _ _ (Or.inl rfl) hkval hval
              | [], hv => simp [wfPayload] at hv
          | set vs =>
              simp only [wfMapVal] at hv
              match vs, hv with
              | [x], hv =>
                  have hfix := normalize_map_fixed k x (Col.set [x]) (Or.inr (Or.inr rfl))
                    hkval (wfElem_validate x (by simpa [wfPayload] using hv))
                  rw [hfix] at h
                  obtain rfl : Col.map [(k, Col.set [x])] = r := Except.ok.inj h
                  exact hfix
              | x1 :: x2 :: rest, hv =>
                  have hall : allStrCols (x1 :: x2 :: rest) = true := by
                    simpa [wfPayload] using hv
                  have hv0 : _validate_fields x1 = .ok () := by
                    cases x1 <;> simp_all [allStrCols, _validate_fields]
                  have hval : _validate_fields (Col.set (x1 :: x2 :: rest)) = .ok () :=
                    validateFieldList_of_allStr _ hall
                  have hlen : decide ((x1 :: x2 :: rest).length > 1) = true := by
                    simp only [decide_eq_true_eq, List.length_cons]; omega
                  have hc : _normalize_columns (Col.map [(k, Col.set (x1 :: x2 :: rest))])
                      = .ok (Col.map [(k, Col.list [Col.set (x1 :: x2 :: rest)])]) := by
                    simp [_normalize_columns, Col.isSized, Col.isMapC, Col.pyLen,
                      Col.isStrC, hlen, Col.tupleFirst, hkval, hv0]
                  rw [hc] at h
                  obtain rfl : Col.map [(k, Col.list [Col.set (x1 :: x2 :: rest)])] = r :=
                    Except.ok.inj h
                  exact normalize_map_fixed k _ _ (Or.inl rfl) hkval hval
              | [], hv => simp [wfPayload] at hv
          | map ws => simp [wfMapVal] at hv
          | intVal n => simp [wfMapVal] at hv
      | [], hwf => simp [wfSpec] at hwf
      | (k1, v1) :: e2 :: rest, hwf => simp [wfSpec] at hwf

/-- Witness for C4: idempotence applied at the concrete spec `{'k': ('B','C')}`
(normal form `{'k': [('B','C')]}`), plus the evaluated first round. -/
theorem C4_normalize_idempotent_witness :
    _normalize_columns (Col.map [(Col.str "k", Col.tupl [Col.str "B", Col.str "C"])])
      = .ok (Col.map [(Col.str "k", Col.list [Col.tupl [Col.str "B", Col.str "C"]])])
    ∧ _normalize_columns (Col.map [(Col.str "k", Col.list [Col.tupl [Col.str "B", Col.str "C"]])])
      = .ok (Col.map [(Col.str "k", Col.list [Col.tupl [Col.str "B", Col.str "C"]])]) :=
  ⟨rfl,
    C4_normalize_idempotent
      (Col.map [(Col.str "k", Col.tupl [Col.str "B", Col.str "C"])])
      (Col.map [(Col.str "k", Col.list [Col.tupl [Col.str "B", Col.str "C"]])])
      (by rfl) (by rfl)⟩

/-- Counterexample to C4 as stated: the spec `{'k': ['A', ('B','C')]}` — a
single-key mapping whose value is a sequence of fields and field-tuples —
is *accepted* by the normalizer (only the first element of the original
value is validated), but normalizing its own output raises `ValueError`,
so `normalize (normalize s) ≠ normalize s`. -/
theorem C4_counterexample :
    _normalize_columns (Col.map [(Col.str "k",
        Col.list [Col.str "A", Col.tupl [Col.str "B", Col.str "C"]])])
      = .ok (Col.map [(Col.str "k",
          Col.list [Col.list [Col.str "A", Col.tupl [Col.str "B", Col.str "C"]]])])
    ∧ _normalize_columns (Col.map [(Col.str "k",
          Col.list [Col.list [Col.str "A", Col.tupl [Col.str "B", Col.str "C"]]])])
      = .error .valueError
    ∧ (Except.error PyErr.valueError : Except PyErr Col)
        ≠ .ok (Col.map [(Col.str "k",
            Col.list [Col.list [Col.str "A", Col.tupl [Col.str "B", Col.str "C"]]])]) :=
  ⟨rfl, rfl, by simp⟩

/-- The validation conditions enumerated by claim C5: input not sized, a
mapping with a number of entries different from one, or a single-entry
mapping whose value is itself a mapping. -/
def c5Conditions (c : Col) : Bool :=
  !c.isSized ||
    (match c with
     | .map es =>
         decide (es.length ≠ 1) ||
           (match es with
            | [(_, v)] => v.isMapC
            | _ => false)
     | _ => false)

/-- **C5 (amended).** Normalizing a columns selection raises a validation
error when the input is not sized, when the input is a mapping with a number
of entries different from one, or when a mapping's value is itself a mapping
— the nested-mapping case raises regardless of the key or value contents,
and normalization is a pure function of the spec (no store is consulted).
In addition (beyond the claim's list, see `C5_counterexample`) a validation
error is also raised when a validated field element is not a string. -/
theorem C5_normalize_validation (c : Col) (h : c5Conditions c = true) :
    _normalize_columns c = .error .valueError := by
  cases c with
  | str s => simp [c5Conditions, Col.isSized] at h
  | list xs => simp [c5Conditions, Col.isSized] at h
  | tupl xs => simp [c5Conditions, Col.isSized] at h
  | set xs => simp [c5Conditions, Col.isSized] at h
  | intVal n => rfl
  | map es =>
      match es with
      | [] => rfl
      | [(k, v)] =>
          have hv : v.isMapC = true := by
            simp [c5Conditions, Col.isSized] at h
            exact h
          simp [_normalize_columns, Col.isSized, hv]
      | e1 :: e2 :: rest => rfl

/-- Witness for C5: the three conditions at concrete inputs — an integer
(not sized), a two-entry mapping, and a nested mapping. -/
theorem C5_normalize_validation_witness :
    _normalize_columns (Col.intVal 7) = .error .valueError
    ∧ _normalize_columns (Col.map [(Col.str "a", Col.str "x"), (Col.str "b", Col.str "y")])
      = .error .valueError
    ∧ _normalize_columns (Col.map [(Col.str "k", Col.map [(Col.str "B", Col.str "C")])])
      = .error .valueError :=
  ⟨C5_normalize_validation (Col.intVal 7) (by rfl),
    C5_normalize_validation
      (Col.map [(Col.str "a", Col.str "x"), (Col.str "b", Col.str "y")]) (by rfl),
    C5_normalize_validation
      (Col.map [(Col.str "k", Col.map [(Col.str "B", Col.str "C")])]) (by rfl)⟩

/-- Counterexample to C5's "exactly": `[[1]]` is sized and not a mapping —
none of the claim's three conditions holds — yet normalization raises a
`ValueError` (a validated field element is not a string). -/
theorem C5_counterexample :
    _normalize_columns (Col.list [Col.list [Col.intVal 1]]) = .error .valueError
    ∧ c5Conditions (Col.list [Col.list [Col.intVal 1]]) = false :=
  ⟨rfl, rfl⟩

/-! ## `execute` source resolution (query.py: `BaseQuery.execute` 773-807,
`BaseQuery._validate_source` 565-570)

`execute(source=None, ...)` chooses between the explicit `source` argument
and the source bound at construction with Python *truthiness* tests
(`if source:` / `if self.source:`), raising `ValueError` when both or
neither are truthy, and delegating to `_validate_source` — which raises
`TypeError` for a non-`Select` — only for a truthy explicit argument. -/

/-- Objects that can appear as a query source: a `Select` store (truthy),
a plain list (truthy iff non-empty) or another object modelled by an
integer (truthy iff non-zero). -/
inductive PySource where
  | select (id : Nat)
  | pylist (len : Nat)
  | pyint (n : Int)
  deriving DecidableEq, Repr

/-- Python truthiness of a source object. -/
def PySource.truthy : PySource → Bool
  | .select _ => true
  | .pylist n => n != 0
  | .pyint n => n != 0

/-- `isinstance(source, Select)`. -/
def PySource.isSelect : PySource → Bool
  | .select _ => true
  | _ => false

/-- Truthiness of an optional argument (`None` is falsy). -/
def pyTruthyOpt : Option PySource → Bool
  | none => false
  | some a => a.truthy

/-- The source-resolution prefix of `BaseQuery.execute` (query.py:782-792):
`self.source` is the source bound at construction, `arg` the explicit
`source` parameter.  Returns the resolved store or the exception raised. -/
def resolveSource (selfSource arg : Option PySource) : Except PyErr PySource :=
  if pyTruthyOpt arg then
    if pyTruthyOpt selfSource then .error .valueError
    else
      match arg with
      | some a => if a.isSelect then .ok a else .error .typeError
      | none => .error .typeError
  else
    match selfSource with
    | some s => if s.truthy then .ok s else .error .valueError
    | none => .error .valueError

/-- **C6 (amended).** `execute` resolves the store to exactly one of the
explicit source argument or the store bound at construction: if both are
present (truthy), or neither is, it raises a *value* error (not a type
error); a truthy source argument that is not a `Select` instance, with no
truthy bound source, raises a type error; otherwise the one truthy source
is used. -/
theorem C6_execute_source_resolution (selfSource arg : Option PySource) :
    (pyTruthyOpt arg = true → pyTruthyOpt selfSource = true →
        resolveSource selfSource arg = .error .valueError)
    ∧ (pyTruthyOpt arg = false → pyTruthyOpt selfSource = false →
        resolveSource selfSource arg = .error .valueError)
    ∧ (∀ a, arg = some a → a.truthy = true → pyTruthyOpt selfSource = false →
        a.isSelect = false → resolveSource selfSource arg = .error .typeError)
    ∧ (∀ a, arg = some a → a.truthy = true → pyTruthyOpt selfSource = false →
        a.isSelect = true → resolveSource selfSource arg = .ok a)
    ∧ (∀ s, selfSource = some s → s.truthy = true → pyTruthyOpt arg = false →
        resolveSource selfSource arg = .ok s) := by
  refine ⟨?_, ?_, ?_, ?_, ?_⟩
  · intro ha hs
    simp [resolveSource, ha, hs]
  · intro ha hs
    cases selfSource with
    | none => simp [resolveSource, ha]
    | some s =>
        simp only [pyTruthyOpt] at hs
        simp [resolveSource, ha, hs]
  · rintro a rfl ha hs hsel
    cases selfSource with
    | none => simp [resolveSource, pyTruthyOpt, ha, hsel]
    | some s =>
        simp only [pyTruthyOpt] at hs
        simp [resolveSource, pyTruthyOpt, ha, hs, hsel]
  · rintro a rfl ha hs hsel
    cases selfSource with
    | none => simp [resolveSource, pyTruthyOpt, ha, hsel]
    | some s =>
        simp only [pyTruthyOpt] at hs
        simp [resolveSource, pyTruthyOpt, ha, hs, hsel]
  · rintro s rfl hs ha
    simp [resolveSource, ha, hs]

/-- Witness for C6 at concrete inputs: both-present, neither-present,
non-`Select` truthy argument, and the two successful resolutions. -/
theorem C6_execute_source_resolution_witness :
    resolveSource (some (.select 0)) (some (.select 1)) = .error .valueError
    ∧ resolveSource none none = .error .valueError
    ∧ resolveSource none (some (.pyint 3)) = .error .typeError
    ∧ resolveSource none (some (.select 2)) = .ok (.select 2)
    ∧ resolveSource (some (.select 0)) none = .ok (.select 0) :=
  ⟨(C6_execute_source_resolution (some (.select 0)) (some (.select 1))).1 rfl rfl,
    (C6_execute_source_resolution none none).2.1 rfl rfl,
    (C6_execute_source_resolution none (some (.pyint 3))).2.2.1 _ rfl rfl rfl rfl,
    (C6_execute_source_resolution none (some (.select 2))).2.2.2.1 _ rfl rfl rfl rfl,
    (C6_execute_source_resolution (some (.select 0)) none).2.2.2.2 _ rfl rfl rfl⟩

/-- Counterexample to C6 as stated: when both an explicit source argument
and a bound source are present, `execute` raises `ValueError`
("cannot take 'source' argument..."), not the type error the claim
asserts; the same holds when neither is present. -/
theorem C6_counterexample :
    resolveSource (some (.select 0)) (some (.select 1)) = .error .valueError
    ∧ resolveSource none none = .error .valueError
    ∧ (Except.error PyErr.valueError : Except PyErr PySource)
        ≠ .error .typeError :=
  ⟨rfl, rfl, by simp⟩

/-! ## Query chain methods (query.py: `BaseQuery.__copy__` 572-578,
`_add_step` 580-584, chain methods 586-659)

Function and predicate objects passed to the chain methods are opaque:
they are modelled by indices.  `_add_step` copies the query (`__copy__`
copies the mutable `kwds` dict and step list, so the receiver is shared
with nothing) and appends one `_query_step` namedtuple; no chain method
passes keyword arguments, so a step's `kwds` is always empty and omitted
from the model. -/

/-- A query-step argument: a function/predicate object (opaque index),
Python `True` (the default `filter` predicate) or Python `None` (the
default `initializer_factory` of `reduce`). -/
inductive StepArg where
  | fn (id : Nat)
  | pyTrue
  | pyNone
  deriving DecidableEq, Repr

/-- `_query_step` namedtuple `(name, args, kwds)` with `kwds = {}`. -/
structure QueryStep where
  name : String
  args : List StepArg
  deriving DecidableEq, Repr

/-- The fields of a `BaseQuery`: bound source, normalized columns args,
where keywords (predicate objects, opaque) and accumulated query steps. -/
structure BaseQuery where
  source : Option PySource
  args : List Col
  kwds : List (String × Nat)
  query_steps : List QueryStep

/-- `BaseQuery._add_step` (query.py:580-584). -/
def BaseQuery._add_step (q : BaseQuery) (name : String) (args : List StepArg) :
    BaseQuery :=
  { q with query_steps := q.query_steps ++ [⟨name, args⟩] }

/-- `BaseQuery.map` (query.py:586-591). -/
def BaseQuery.map (q : BaseQuery) (function : Nat) : BaseQuery :=
  q._add_step "map" [.fn function]

/-- `BaseQuery.starmap` (query.py:593-594). -/
def BaseQuery.starmap (q : BaseQuery) (function : Nat) : BaseQuery :=
  q._add_step "starmap" [.fn function]

/-- `BaseQuery.filter` (query.py:596-602); the default predicate is `True`. -/
def BaseQuery.filter (q : BaseQuery) (predicate : StepArg) : BaseQuery :=
  q._add_step "filter" [predicate]

/-- `BaseQuery.reduce` (query.py:604-616); `initializer_factory` must be
callable or `None` (the `TypeError` branch is outside this model's domain:
every modelled object `fn id` is callable). -/
def BaseQuery.reduce (q : BaseQuery) (function : Nat)
    (initializer_factory : Option Nat) : BaseQuery :=
  q._add_step "reduce"
    [.fn function,
      match initializer_factory with
      | some g => .fn g
      | none => .pyNone]

/-- `BaseQuery.apply` (query.py:618-623). -/
def BaseQuery.apply (q : BaseQuery) (function : Nat) : BaseQuery :=
  q._add_step "apply" [.fn function]

/-- `BaseQuery.sum` (query.py:625-627). -/
def BaseQuery.sum (q : BaseQuery) : BaseQuery := q._add_step "sum" []

/-- `BaseQuery.count` (query.py:629-631). -/
def BaseQuery.count (q : BaseQuery) : BaseQuery := q._add_step "count" []

/-- `BaseQuery.avg` (query.py:633-637). -/
def BaseQuery.avg (q : BaseQuery) : BaseQuery := q._add_step "avg" []

/-- `BaseQuery.min` (query.py:639-641). -/
def BaseQuery.min (q : BaseQuery) : BaseQuery := q._add_step "min" []

/-- `BaseQuery.max` (query.py:643-645). -/
def BaseQuery.max (q : BaseQuery) : BaseQuery := q._add_step "max" []

/-- `BaseQuery.distinct` (query.py:647-649). -/
def BaseQuery.distinct (q : BaseQuery) : BaseQuery := q._add_step "distinct" []

/-- `BaseQuery.flatten` (query.py:651-655). -/
def BaseQuery.flatten (q : BaseQuery) : BaseQuery := q._add_step "flatten" []

/-- `BaseQuery.unwrap` (query.py:657-659). -/
def BaseQuery.unwrap (q : BaseQuery) : BaseQuery := q._add_step "unwrap" []

/-- The relation claim C7 asserts: `r` is `q` with exactly `step` appended
to its step list and the source, args and kwds fields unchanged. -/
def appendsStep (q r : BaseQuery) (step : QueryStep) : Prop :=
  r.source = q.source ∧ r.args = q.args ∧ r.kwds = q.kwds
    ∧ r.query_steps = q.query_steps ++ [step]

/-- **C7.** For every Query and every chain method (map, starmap, filter,
reduce, apply, sum, count, avg, min, max, distinct, flatten, unwrap),
calling the method returns a new Query whose step list is the receiver's
step list with exactly one step appended, and the receiver's source, args,
kwds and step list are unchanged (the embedding is functional: the receiver
`q` is a value, and execution — `resolveSource` on `q.source` — reads but
never produces a modified query). -/
theorem C7_chain_methods_append (q : BaseQuery) (f : Nat) (p : StepArg)
    (init : Option Nat) :
    appendsStep q (q.map f) ⟨"map", [.fn f]⟩
    ∧ appendsStep q (q.starmap f) ⟨"starmap", [.fn f]⟩
    ∧ appendsStep q (q.filter p) ⟨"filter", [p]⟩
    ∧ appendsStep q (q.reduce f init)
        ⟨"reduce", [.fn f, match init with | some g => .fn g | none => .pyNone]⟩
    ∧ appendsStep q (q.apply f) ⟨"apply", [.fn f]⟩
    ∧ appendsStep q q.sum ⟨"sum", []⟩
    ∧ appendsStep q q.count ⟨"count", []⟩
    ∧ appendsStep q q.min ⟨"min", []⟩
    ∧ appendsStep q q.max ⟨"max", []⟩
    ∧ appendsStep q q.avg ⟨"avg", []⟩
    ∧ appendsStep q q.distinct ⟨"distinct", []⟩
    ∧ appendsStep q q.flatten ⟨"flatten", []⟩
    ∧ appendsStep q q.unwrap ⟨"unwrap", []⟩ :=
  ⟨⟨rfl, rfl, rfl, rfl⟩, ⟨rfl, rfl, rfl, rfl⟩, ⟨rfl, rfl, rfl, rfl⟩,
    ⟨rfl, rfl, rfl, rfl⟩, ⟨rfl, rfl, rfl, rfl⟩, ⟨rfl, rfl, rfl, rfl⟩,
    ⟨rfl, rfl, rfl, rfl⟩, ⟨rfl, rfl, rfl, rfl⟩, ⟨rfl, rfl, rfl, rfl⟩,
    ⟨rfl, rfl, rfl, rfl⟩, ⟨rfl, rfl, rfl, rfl⟩, ⟨rfl, rfl, rfl, rfl⟩,
    ⟨rfl, rfl, rfl, rfl⟩⟩

/-! ## Lazy Result (result.py: `Result.__init__` 59-79, `close` 81-87,
`__next__` 99-118, `_refresh_cache` 126-143)

For a non-mapping evaluation type the cache length is `len(self._cache)`
and the lookahead bound is `_preview_length + 1 = 6`.  The state of a
`Result` over a plain iterable is its cache (a deque), the remaining
underlying elements, whether the close callback is still set, and — as
instrumentation for claim C8 — how many times the callback has been
invoked. -/

/-- State of a `Result` over a non-mapping iterable. -/
structure ResultState (α : Type) where
  cache : List α
  rest : List α
  hasClosefunc : Bool
  closeCalls : Nat

/-- `_preview_length + 1` (result.py:56 and 130). -/
def refreshLength : Nat := 6

/-- `Result.close` (result.py:81-87): invoke the callback and clear it; a
later call finds `self._closefunc` is `None` and passes without error. -/
def ResultState.close (s : ResultState α) : ResultState α :=
  if s.hasClosefunc then
    { s with hasClosefunc := false, closeCalls := s.closeCalls + 1 }
  else s

/-- What a pull returns: an element, or end-of-data (`StopIteration`). -/
inductive NextOut (α : Type) where
  | item (a : α)
  | stop

/-- `Result.__next__` (result.py:99-118): serve from the cache first, then
from the wrapped iterator; on exhaustion, close and signal `StopIteration`. -/
def ResultState.next (s : ResultState α) : NextOut α × ResultState α :=
  match s.cache with
  | a :: cs => (.item a, { s with cache := cs })
  | [] =>
      match s.rest with
      | a :: rs => (.item a, { s with rest := rs })
      | [] => (.stop, s.close)

/-- The loop of `Result._refresh_cache`: move elements from the wrapped
iterator into the cache while the cache holds fewer than
`_preview_length + 1` elements (stop early on `StopIteration`). -/
def refreshFill (cache : List α) : List α → List α × List α
  | [] => (cache, [])
  | a :: rs =>
      if cache.length < refreshLength then refreshFill (cache ++ [a]) rs
      else (cache, a :: rs)

/-- `Result._refresh_cache` (result.py:126-143). -/
def ResultState.refreshCache (s : ResultState α) : ResultState α :=
  let p := refreshFill s.cache s.rest
  { s with cache := p.1, rest := p.2 }

/-- `Result.__init__` (result.py:59-79): store the callback, wrap the
iterable, and pre-fill the lookahead cache. -/
def mkResult (xs : List α) (closefunc : Bool) : ResultState α :=
  ResultState.refreshCache
    { cache := [], rest := xs, hasClosefunc := closefunc, closeCalls := 0 }

/-- The operations a client can interleave on a `Result`. -/
inductive ResOp where
  | close
  | next
  deriving DecidableEq

/-- Run a sequence of operations, discarding the yielded elements. -/
def runOps (s : ResultState α) : List ResOp → ResultState α
  | [] => s
  | .close :: ops => runOps s.close ops
  | .next :: ops => runOps (s.next).2 ops

/-- The elements a state will deliver: cached elements first, then the
underlying iterator. -/
def ResultState.drain (s : ResultState α) : List α := s.cache ++ s.rest

/-- Collect the elements yielded by `n` successive pulls. -/
def collectNexts (s : ResultState α) : Nat → List α
  | 0 => []
  | n + 1 =>
      match s.next with
      | (.item a, s') => a :: collectNexts s' n
      | (.stop, _) => []

theorem refreshFill_drain : ∀ (rest cache : List α),
    (refreshFill cache rest).1 ++ (refreshFill cache rest).2 = cache ++ rest := by
  intro rest
  induction rest with
  | nil => intro cache; simp [refreshFill]
  | cons a rs ih =>
      intro cache
      by_cases h : cache.length < refreshLength
      · simp only [refreshFill, if_pos h, ih]
        simp
      · simp only [refreshFill, if_neg h]

theorem refreshCache_drain (s : ResultState α) : (s.refreshCache).drain = s.drain := by
  unfold ResultState.refreshCache ResultState.drain
  exact refreshFill_drain s.rest s.cache

theorem mkResult_drain (xs : List α) (b : Bool) : (mkResult xs b).drain = xs := by
  unfold mkResult
  rw [refreshCache_drain]
  rfl

theorem mkResult_close_fields (xs : List α) (b : Bool) :
    (mkResult xs b).hasClosefunc = b ∧ (mkResult xs b).closeCalls = 0 :=
  ⟨rfl, rfl⟩

theorem next_cons_cache {s : ResultState α} {a : α} {cs : List α}
    (h : s.cache = a :: cs) : s.next = (.item a, { s with cache := cs }) := by
  unfold ResultState.next
  rw [h]

theorem next_cons_rest {s : ResultState α} {a : α} {rs : List α}
    (hc : s.cache = []) (hr : s.rest = a :: rs) :
    s.next = (.item a, { s with rest := rs }) := by
  unfold ResultState.next
  rw [hc, hr]

theorem next_exhausted {s : ResultState α} (hc : s.cache = []) (hr : s.rest = []) :
    s.next = (.stop, s.close) := by
  unfold ResultState.next
  rw [hc, hr]

/-- The close-callback invariant: either the callback is still set and has
never run, or it has been cleared after exactly one invocation. -/
def closeInv (s : ResultState α) : Prop :=
  (s.hasClosefunc = true ∧ s.closeCalls = 0)
  ∨ (s.hasClosefunc = false ∧ s.closeCalls = 1)

theorem closeInv_close {s : ResultState α} (h : closeInv s) : closeInv s.close := by
  rcases h with ⟨h1, h2⟩ | ⟨h1, h2⟩ <;>
    simp [ResultState.close, h1, h2, closeInv]

theorem close_clears {s : ResultState α} : (s.close).hasClosefunc = false := by
  by_cases h : s.hasClosefunc = true <;> simp_all [ResultState.close]

theorem closeInv_next {s : ResultState α} (h : closeInv s) : closeInv (s.next).2 := by
  cases hc : s.cache with
  | cons a cs => rw [next_cons_cache hc]; exact h
  | nil =>
      cases hr : s.rest with
      | cons a rs => rw [next_cons_rest hc hr]; exact h
      | nil => rw [next_exhausted hc hr]; exact closeInv_close h

theorem closeInv_runOps {s : ResultState α} (h : closeInv s) :
    ∀ ops : List ResOp, closeInv (runOps s ops) := by
  intro ops
  induction ops generalizing s with
  | nil => exact h
  | cons op ops ih =>
      cases op with
      | close => exact ih (closeInv_close h)
      | next => exact ih (closeInv_next h)

theorem hasClosefunc_close_false {s : ResultState α} (h : s.hasClosefunc = false) :
    s.close = s := by
  simp [ResultState.close, h]

theorem closed_absorbing {s : ResultState α} (h : s.hasClosefunc = false) :
    ∀ ops : List ResOp, (runOps s ops).hasClosefunc = false := by
  intro ops
  induction ops generalizing s with
  | nil => exact h
  | cons op ops ih =>
      cases op with
      | close =>
          simp only [runOps, hasClosefunc_close_false h]
          exact ih h
      | next =>
          refine ih ?_
          cases hc : s.cache with
          | cons a cs => rw [next_cons_cache hc]; exact h
          | nil =>
              cases hr : s.rest with
              | cons a rs => rw [next_cons_rest hc hr]; exact h
              | nil => rw [next_exhausted hc hr]; exact close_clears

theorem runOps_append (s : ResultState α) (ops1 ops2 : List ResOp) :
    runOps s (ops1 ++ ops2) = runOps (runOps s ops1) ops2 := by
  induction ops1 generalizing s with
  | nil => rfl
  | cons op ops ih =>
      cases op <;> simp only [List.cons_append, runOps] <;> exact ih _

theorem runNexts_exhaust (n : Nat) : ∀ s : ResultState α,
    s.cache.length + s.rest.length < n →
    (runOps s (List.replicate n ResOp.next)).hasClosefunc = false := by
  induction n with
  | zero => intro s h; omega
  | succ n ih =>
      intro s h
      simp only [List.replicate_succ, runOps]
      cases hc : s.cache with
      | cons a cs =>
          rw [next_cons_cache hc]
          apply ih
          rw [hc] at h
          simp only [List.length_cons] at h ⊢
          omega
      | nil =>
          cases hr : s.rest with
          | cons a rs =>
              rw [next_cons_rest hc hr]
              apply ih
              rw [hc, hr] at h
              simp only [List.length_cons, List.length_nil, hc] at h ⊢
              omega
          | nil =>
              rw [next_exhausted hc hr]
              exact closed_absorbing close_clears _

/-- **C8.** For every Result constructed with a close callback, the callback
is invoked exactly once across any combination of explicit `close()` calls
and iteration: the invocation count never exceeds one, any sequence
containing a `close` — and likewise pulling past the last element — yields
exactly one invocation, and closing an already-closed Result is the
identity (so it neither raises nor re-invokes the callback; `close` is
total in this model, which is the "never raises" part of the claim). -/
theorem C8_close_callback_once (xs : List α) (ops : List ResOp) :
    (runOps (mkResult xs true) ops).closeCalls ≤ 1
    ∧ (ResOp.close ∈ ops → (runOps (mkResult xs true) ops).closeCalls = 1)
    ∧ (runOps (mkResult xs true)
        (List.replicate (xs.length + 1) ResOp.next)).closeCalls = 1
    ∧ (∀ s : ResultState α, s.hasClosefunc = false →
        s.close = s ∧ (s.close).closeCalls = s.closeCalls) := by
  have hinv0 : closeInv (mkResult xs true) := by
    rcases mkResult_close_fields xs true with ⟨h1, h2⟩
    exact Or.inl ⟨h1, h2⟩
  refine ⟨?_, ?_, ?_, ?_⟩
  · rcases closeInv_runOps hinv0 ops with ⟨_, h⟩ | ⟨_, h⟩ <;> omega
  · intro hmem
    have habs : (runOps (mkResult xs true) ops).hasClosefunc = false := by
      obtain ⟨pre, post, rfl⟩ := List.append_of_mem hmem
      rw [runOps_append]
      simp only [runOps]
      exact closed_absorbing close_clears post
    rcases closeInv_runOps hinv0 ops with ⟨h, _⟩ | ⟨_, h⟩
    · rw [habs] at h; cases h
    · exact h
  · have hlen : (mkResult xs true).cache.length + (mkResult xs true).rest.length
        = xs.length := by
      have hdrain := mkResult_drain xs true
      unfold ResultState.drain at hdrain
      rw [← List.length_append, hdrain]
    have habs := runNexts_exhaust (xs.length + 1) (mkResult xs true) (by omega)
    rcases closeInv_runOps hinv0 (List.replicate (xs.length + 1) ResOp.next) with
      ⟨h, _⟩ | ⟨_, h⟩
    · rw [habs] at h; cases h
    · exact h
  · intro s h
    exact ⟨hasClosefunc_close_false h, by rw [hasClosefunc_close_false h]⟩

/-- Witness for C8 at concrete inputs: a pull followed by a double close
invokes the callback once, and pulling past the last element does too. -/
theorem C8_close_callback_once_witness :
    (runOps (mkResult [1, 2] true) [ResOp.next, ResOp.close, ResOp.close]).closeCalls = 1
    ∧ (runOps (mkResult ([1, 2] : List Nat) true)
        (List.replicate 3 ResOp.next)).closeCalls = 1 :=
  ⟨(C8_close_callback_once ([1, 2] : List Nat)
      [ResOp.next, ResOp.close, ResOp.close]).2.1 (by simp),
    (C8_close_callback_once ([1, 2] : List Nat) []).2.2.1⟩

theorem collectNexts_drain (n : Nat) : ∀ s : ResultState α, s.drain.length = n →
    collectNexts s n = s.drain := by
  induction n with
  | zero =>
      intro s h
      have hd : s.drain = [] := List.length_eq_zero.mp h
      rw [hd]
      rfl
  | succ n ih =>
      intro s h
      cases hc : s.cache with
      | cons a cs =>
          have hd : s.drain = a :: (cs ++ s.rest) := by
            simp [ResultState.drain, hc]
          rw [hd]
          simp only [collectNexts, next_cons_cache hc]
          congr 1
          have hlen : ({ s with cache := cs } : ResultState α).drain.length = n := by
            rw [hd] at h
            simpa [ResultState.drain] using h
          have := ih { s with cache := cs } hlen
          rw [this]
          rfl
      | nil =>
          cases hr : s.rest with
          | nil =>
              exfalso
              simp [ResultState.drain, hc, hr] at h
          | cons a rs =>
              have hd : s.drain = a :: rs := by
                simp [ResultState.drain, hc, hr]
              rw [hd]
              simp only [collectNexts, next_cons_rest hc hr]
              congr 1
              have hlen : ({ s with rest := rs } : ResultState α).drain.length = n := by
                rw [hd] at h
                simpa [ResultState.drain, hc] using h
              have := ih { s with rest := rs } hlen
              rw [this]
              simp [ResultState.drain, hc]

/-- **C9.** For every Result over a non-mapping collection, filling the
bounded lookahead cache (the `_refresh_cache` used for previews) and then
iterating normally yields exactly the elements of the underlying iterable,
in order, with no element skipped and none duplicated; cached elements are
served from the buffer before falling back to the underlying source. -/
theorem C9_refresh_preserves_iteration (s : ResultState α) (xs : List α) (b : Bool) :
    (s.refreshCache).drain = s.drain
    ∧ (mkResult xs b).drain = xs
    ∧ collectNexts ((mkResult xs b).refreshCache) xs.length = xs
    ∧ (∀ a cs, s.cache = a :: cs → s.next = (.item a, { s with cache := cs }))
    ∧ collectNexts s s.drain.length = s.drain := by
  refine ⟨refreshCache_drain s, mkResult_drain xs b, ?_,
    fun a cs h => next_cons_cache h, collectNexts_drain _ s rfl⟩
  have h1 : ((mkResult xs b).refreshCache).drain = xs := by
    rw [refreshCache_drain, mkResult_drain]
  have h2 := collectNexts_drain xs.length ((mkResult xs b).refreshCache)
    (by rw [h1])
  rw [h1] at h2
  exact h2

/-- Witness for C9: a seven-element source (one longer than the lookahead
bound) refreshed and then fully iterated, evaluated concretely. -/
theorem C9_refresh_preserves_iteration_witness :
    collectNexts ((mkResult [1, 2, 3, 4, 5, 6, 7] false).refreshCache) 7
      = [1, 2, 3, 4, 5, 6, 7]
    ∧ (mkResult ([1, 2, 3, 4, 5, 6, 7] : List Nat) false).cache = [1, 2, 3, 4, 5, 6] :=
  ⟨(C9_refresh_preserves_iteration (mkResult [9] false)
      ([1, 2, 3, 4, 5, 6, 7] : List Nat) false).2.2.1,
    by decide⟩

/-! ## `_map_data` / `_starmap_data` (query.py:164-190)

`_apply_to_data` (query.py:154-161) applies the inner `wrapper` group-wise
when the data is a collection of key/value items, preserving the outer
evaluation type; the wrapper itself maps `BaseElement`s directly and
re-wraps collections, demoting set evaluation types to `list`. -/

/-- Python evaluation types carried by `Result` objects. -/
inductive EvalType where
  | listT
  | tupleT
  | setT
  | frozensetT
  | dictT
  deriving DecidableEq, Repr

/-- `issubclass(evaltype, Set)` (query.py:170 and 185). -/
def EvalType.isSetType : EvalType → Bool
  | .setT => true
  | .frozensetT => true
  | _ => false

/-- A group value inside a grouped (mapping) result: a single data element
(`BaseElement`) or a sub-collection with its evaluation type. -/
inductive GroupVal where
  | single (v : Value)
  | coll (et : EvalType) (xs : List Value)

/-- Data flowing through the pipeline: a single `BaseElement`, a collection
wrapped in a `Result` with its evaluation type, or a collection of
key/value items (`IterItems`) with a mapping evaluation type. -/
inductive PipeData where
  | single (v : Value)
  | coll (et : EvalType) (xs : List Value)
  | grouped (et : EvalType) (entries : List (Value × GroupVal))

/-- Evaluation type of pipeline data (`_get_evaltype`, query.py:124-143):
`none` for a bare element. -/
def PipeData.evaltypeOf : PipeData → Option EvalType
  | .single _ => none
  | .coll et _ => some et
  | .grouped et _ => some et

/-- The `wrapper` inside `_map_data` applied to one group value. -/
def mapGroupVal (f : Value → Value) : GroupVal → GroupVal
  | .single v => .single (f v)
  | .coll et xs => .coll (if et.isSetType then .listT else et) (xs.map f)

/-- `_map_data` (query.py:164-174): `BaseElement`s are mapped directly; a
collection keeps its evaluation type except that set types become `list`
(the mapped results may be non-distinct or unhashable); grouped data is
mapped group-wise with the outer evaluation type preserved. -/
def _map_data (f : Value → Value) : PipeData → PipeData
  | .single v => .single (f v)
  | .coll et xs => .coll (if et.isSetType then .listT else et) (xs.map f)
  | .grouped et entries =>
      .grouped et (entries.map (fun e => (e.1, mapGroupVal f e.2)))

/-- Python iterability of a data element (`isinstance(x, Iterable)`):
strings iterate into one-character strings, blobs into their byte values,
tuples into their components; everything else is wrapped as `(x,)`. -/
def pyIterate : Value → Option (List Value)
  | .str s => some (s.data.map (fun c => Value.str (String.mk [c])))
  | .blob bs => some (bs.map (fun b => Value.num b))
  | .tup vs => some vs
  | _ => none

/-- `x if isinstance(x, Iterable) else (x,)` (query.py:180-181, 187). -/
def starArgs (v : Value) : List Value := (pyIterate v).getD [v]

/-- The `wrapper` inside `_starmap_data` applied to one group value. -/
def starGroupVal (f : List Value → Value) : GroupVal → GroupVal
  | .single v => .single (f (starArgs v))
  | .coll et xs =>
      .coll (if et.isSetType then .listT else et) (xs.map (fun x => f (starArgs x)))

/-- `_starmap_data` (query.py:177-190); same evaluation-type rule as
`_map_data`, with each element unpacked into the function's arguments. -/
def _starmap_data (f : List Value → Value) : PipeData → PipeData
  | .single v => .single (f (starArgs v))
  | .coll et xs =>
      .coll (if et.isSetType then .listT else et) (xs.map (fun x => f (starArgs x)))
  | .grouped et entries =>
      .grouped et (entries.map (fun e => (e.1, starGroupVal f e.2)))

/-- **C10.** For every map or starmap step applied to a collection whose
evaluation type is a set type, the resulting Result's evaluation type is
`list`, not the original set type; non-set evaluation types are preserved;
for grouped (mapping) data the same set-to-list conversion is applied to
each group's value while the outer mapping evaluation type is preserved. -/
theorem C10_map_drops_set_evaltype (f : Value → Value) (g : List Value → Value)
    (et : EvalType) (xs : List Value) (entries : List (Value × GroupVal)) :
    (_map_data f (PipeData.coll et xs)
        = PipeData.coll (if et.isSetType then .listT else et) (xs.map f))
    ∧ (_starmap_data g (PipeData.coll et xs)
        = PipeData.coll (if et.isSetType then .listT else et)
            (xs.map (fun x => g (starArgs x))))
    ∧ (et.isSetType = true →
        (_map_data f (PipeData.coll et xs)).evaltypeOf = some EvalType.listT
        ∧ (_starmap_data g (PipeData.coll et xs)).evaltypeOf = some EvalType.listT)
    ∧ (et.isSetType = false →
        (_map_data f (PipeData.coll et xs)).evaltypeOf = some et
        ∧ (_starmap_data g (PipeData.coll et xs)).evaltypeOf = some et)
    ∧ (_map_data f (PipeData.grouped et entries)
        = PipeData.grouped et (entries.map (fun e => (e.1, mapGroupVal f e.2))))
    ∧ (_starmap_data g (PipeData.grouped et entries)
        = PipeData.grouped et (entries.map (fun e => (e.1, starGroupVal g e.2))))
    ∧ (∀ et' ys, mapGroupVal f (GroupVal.coll et' ys)
        = GroupVal.coll (if et'.isSetType then .listT else et') (ys.map f))
    ∧ (∀ et' ys, starGroupVal g (GroupVal.coll et' ys)
        = GroupVal.coll (if et'.isSetType then .listT else et')
            (ys.map (fun x => g (starArgs x)))) := by
  refine ⟨rfl, rfl, ?_, ?_, rfl, rfl, fun et' ys => rfl, fun et' ys => rfl⟩
  · intro h
    constructor <;> simp [_map_data, _starmap_data, PipeData.evaltypeOf, h]
  · intro h
    constructor <;> simp [_map_data, _starmap_data, PipeData.evaltypeOf, h]

/-- Witness for C10: the set-to-list demotion and type preservation applied
at concrete evaluation types. -/
theorem C10_map_drops_set_evaltype_witness :
    (_map_data id (PipeData.coll EvalType.setT [Value.num 1])).evaltypeOf
      = some EvalType.listT
    ∧ (_map_data id (PipeData.coll EvalType.listT [Value.num 1])).evaltypeOf
      = some EvalType.listT :=
  ⟨((C10_map_drops_set_evaltype id (fun _ => Value.null) EvalType.setT
      [Value.num 1] []).2.2.1 rfl).1,
    ((C10_map_drops_set_evaltype id (fun _ => Value.null) EvalType.listT
      [Value.num 1] []).2.2.2.1 rfl).1⟩

/-! ## Dual evaluation paths for `select(spec) → sum()` (claim C1)

The unoptimized plan runs `Select._select` (select.py:412-425) and then the
pure-iterator sum (`_apply_to_data(_sqlite_sum, -)`); the optimized plan —
produced by `BaseQuery._optimize` (query.py:729-771) — runs
`Select._select_aggregate('SUM', ...)` (select.py:440-461).  The adapter's
SQL-text construction is in the repository, but the SQL engine executing it
is not: WHERE filtering, DISTINCT, ORDER BY, GROUP BY and the SQL `SUM`
aggregate are modelled from the spec (§4.2/§4.3) below, marked
"Modelled from the spec".  Both plans share the WHERE/projection model by
construction, exactly as both execute the same `_build_where_clause`. -/

/-- A table row. -/
abbrev Row := List Value

/-- A relational store handle: field names and loaded rows. -/
structure Table where
  fields : List String
  rows : List Row

/-- The value of column `f` in row `r` (missing columns read as NULL). -/
def cellAt (t : Table) (r : Row) (f : String) : Value :=
  match t.fields.findIdx? (fun g => g == f) with
  | some i => r.getD i Value.null
  | none => Value.null

/-- The *where* keywords: per-field match predicates
(`_build_where_clause`, select.py:262-295: equality, `IN`, or a registered
predicate function — all per-column row filters). -/
abbrev Wh := List (String × (Value → Bool))

/-- Modelled from the spec: a row satisfies the SQL WHERE clause iff every
keyword's predicate matches the row's value for that field. -/
def rowPasses (t : Table) (w : Wh) (r : Row) : Bool :=
  w.all (fun p => p.2 (cellAt t r p.1))

/-- Modelled from the spec: the WHERE-filtered rows. -/
def selectedRows (t : Table) (w : Wh) : List Row :=
  t.rows.filter (rowPasses t w)

/-- The value (or key) part of a normalized selection: a single field or a
tuple of fields (`_parse_columns` / `_parse_key_value`). -/
inductive VInner where
  | fldI (f : String)
  | tupI (fs : List String)
  deriving DecidableEq

/-- The columns an inner selection names. -/
def VInner.cols : VInner → List String
  | .fldI f => [f]
  | .tupI fs => fs

/-- A normalized selection spec as consumed by `_select` and
`_select_aggregate`: optional grouping key, value part, and whether the
value container is a `Set` (DISTINCT semantics). -/
structure NSpec where
  key : Option VInner
  value : VInner
  valueIsSet : Bool

/-- The grouping-key columns (empty for a flat selection). -/
def NSpec.keyCols (s : NSpec) : List String :=
  match s.key with
  | none => []
  | some k => k.cols

/-- Number of key columns. -/
def NSpec.nk (s : NSpec) : Nat := s.keyCols.length

/-- The value columns. -/
def NSpec.valCols (s : NSpec) : List String := s.value.cols

/-- Modelled from the spec: the SQL projection of one row onto the given
column list. -/
def projectRow (t : Table) (cols : List String) (r : Row) : Row :=
  cols.map (cellAt t r)

/-- The cursor rows before DISTINCT/ORDER BY: WHERE-filtered rows projected
onto key columns followed by value columns. -/
def projRows (t : Table) (s : NSpec) (w : Wh) : List Row :=
  (selectedRows t w).map (projectRow t (s.keyCols ++ s.valCols))

/-- Modelled from the spec: SQL `DISTINCT` on whole rows, keeping the first
occurrence of each row. -/
def dedupRows (seen : List Row) : List Row → List Row
  | [] => []
  | r :: rs =>
      if r ∈ seen then dedupRows seen rs
      else r :: dedupRows (r :: seen) rs

/-- Modelled from the spec: SQL `DISTINCT` inside an aggregate, on single
values. -/
def dedupVals (seen : List Value) : List Value → List Value
  | [] => []
  | v :: vs =>
      if v ∈ seen then dedupVals seen vs
      else v :: dedupVals (v :: seen) vs

/-- The leading key cells of a projected row. -/
def rowKey (nk : Nat) (r : Row) : List Value := r.take nk

/-- Modelled from the spec: SQLite multi-column ORDER BY comparison —
lexicographic over the sort-key order of `_sqlite_sortkey`. -/
def keyListLt : List Value → List Value → Bool
  | _, [] => false
  | [], _ :: _ => true
  | a :: as, b :: bs => keyLtB a b || (a == b && keyListLt as bs)

/-- Insertion step of the key sort. -/
def insertKeySorted (k : List Value) : List (List Value) → List (List Value)
  | [] => [k]
  | j :: js => if keyListLt k j then k :: j :: js else j :: insertKeySorted k js

/-- Modelled from the spec: the store's ORDER BY on the key columns
(insertion sort by `keyListLt`). -/
def sortKeys : List (List Value) → List (List Value)
  | [] => []
  | k :: ks => insertKeySorted k (sortKeys ks)

/-- First-seen deduplication of key lists. -/
def dedupKeys (seen : List (List Value)) : List (List Value) → List (List Value)
  | [] => []
  | k :: ks =>
      if k ∈ seen then dedupKeys seen ks
      else k :: dedupKeys (k :: seen) ks

/-- Modelled from the spec: one group per distinct key, keys in ORDER BY
order, each group holding its rows in source order (spec §4.3: GROUP BY,
and the grouping a key-ordered cursor induces). -/
def groupsOf (nk : Nat) (rows : List Row) : List (List Value × List Row) :=
  (sortKeys (dedupKeys [] (rows.map (rowKey nk)))).map
    (fun k => (k, rows.filter (fun r => rowKey nk r == k)))

/-- Modelled from the spec: the cursor rows of the ORDER BY query — the
groups' rows concatenated in key order (a stable key sort). -/
def orderByKey (nk : Nat) (rows : List Row) : List Row :=
  (groupsOf nk rows).flatMap Prod.snd

theorem dropWhile_length_le {α : Type} (p : α → Bool) : ∀ l : List α,
    (l.dropWhile p).length ≤ l.length := by
  intro l
  induction l with
  | nil => exact Nat.le_refl _
  | cons a l ih =>
      rw [List.dropWhile_cons]
      by_cases h : p a
      · rw [if_pos h]
        exact Nat.le_trans ih (by simp)
      · rw [if_neg h]

/-- `itertools.groupby(cursor, keyfunc)` (select.py:374): groups
*consecutive* cursor rows whose first `nk` cells agree. -/
def groupbyAdj (nk : Nat) : List Row → List (List Value × List Row)
  | [] => []
  | r :: rs =>
      (rowKey nk r, r :: rs.takeWhile (fun x => rowKey nk x == rowKey nk r))
        :: groupbyAdj nk (rs.dropWhile (fun x => rowKey nk x == rowKey nk r))
  termination_by rows => rows.length
  decreasing_by
    have := dropWhile_length_le (fun x => rowKey nk x == rowKey nk r) rs
    simp only [List.length_cons]
    omega

/-- `_format_result_group` / the `keyfunc` of `_format_results`
(select.py:341-381): a single-field inner takes the lone cell, a
tuple-of-fields inner rebuilds the tuple. -/
def formatCells : VInner → List Value → Value
  | .fldI _, cells => cells.headD Value.null
  | .tupI _, cells => Value.tup cells

/-- The value cells of a projected row (the `x[-index:]` slice of
`_format_results`, select.py:378). -/
def valCellsOf (nk : Nat) (r : Row) : Row := r.drop nk

/-- The rows `_select`'s cursor yields: projected, DISTINCT when the value
container is a `Set`, in ORDER BY order when grouped. -/
def selectCursorRows (t : Table) (s : NSpec) (w : Wh) : List Row :=
  let rows := projRows t s w
  let rows := if s.valueIsSet then dedupRows [] rows else rows
  if s.key.isSome then orderByKey s.nk rows else rows

/-- `Select._select` on a flat (ungrouped) spec: the formatted values. -/
def selectFlat (t : Table) (s : NSpec) (w : Wh) : List Value :=
  (selectCursorRows t s w).map (formatCells s.value)

/-- `Select._select` on a grouped spec: `itertools.groupby` over the
key-ordered cursor. -/
def selectGrouped (t : Table) (s : NSpec) (w : Wh) :
    List (List Value × List Row) :=
  groupbyAdj s.nk (selectCursorRows t s w)

/-- Modelled from the spec (§4.2): the cast the SQL `SUM` applies — the
same semantics as the pure-iterator cast: numbers pass through, strings
parse as floats with non-numeric strings becoming 0.0, anything else is a
type error. -/
def spec_castReal : Value → Except PyErr ℚ
  | .num q => .ok q
  | .str s =>
      match parsePyFloat s with
      | some q => .ok q
      | none => .ok 0
  | _ => .error .typeError

/-- Modelled from the spec (§4.2): the SQL `SUM` aggregate — NULL when
there are no non-NULL inputs, otherwise the total of the cast values. -/
def spec_SUM (cells : List Value) : Except PyErr (Option ℚ) := do
  let reals ← (cells.filter (fun v => v != Value.null)).mapM spec_castReal
  if reals.isEmpty then pure none else pure (some reals.sum)

/-- A Python aggregate result rendered as a value: NULL or the total. -/
def renderSum : Option ℚ → Value
  | none => Value.null
  | some q => Value.num q

/-- One `SUM(col)` (or `SUM(DISTINCT col)`) of `_select_aggregate`'s select
clause, applied to the value column at index `j` of a group's rows. -/
def aggColumn (s : NSpec) (rowsg : List Row) (j : Nat) : Except PyErr Value := do
  let cells := rowsg.map (fun r => (valCellsOf s.nk r).getD j Value.null)
  let cells := if s.valueIsSet then dedupVals [] cells else cells
  let q ← spec_SUM cells
  pure (renderSum q)

/-- The aggregate row for one group: one summed value per value column
(select.py:449). -/
def aggRow (s : NSpec) (rowsg : List Row) : Except PyErr (List Value) :=
  (List.range s.valCols.length).mapM (aggColumn s rowsg)

/-- The Python aggregate functions recognized by the optimizer's
`func_dict` (query.py:743-749). -/
inductive AggName where
  | sumA
  | countA
  | avgA
  | minA
  | maxA
  deriving DecidableEq

/-- The SQL function name the optimizer pairs with each aggregate
(query.py:743-749). -/
def sqlNameOf : AggName → String
  | .sumA => "SUM"
  | .countA => "COUNT"
  | .avgA => "AVG"
  | .minA => "MIN"
  | .maxA => "MAX"

/-- Execution-plan steps of the `select → aggregate` plans: fetch a bound
method from the evolving result (`getattr` with the result token), call it
with the stored args/where, or apply a pure aggregate via
`_apply_to_data`. -/
inductive ExecStep where
  | getattrSelect
  | getattrSelectAggregate
  | callArgs (s : NSpec) (w : Wh)
  | callAggArgs (fname : String) (s : NSpec) (w : Wh)
  | applyAgg (f : AggName)

/-- `_get_execution_plan` (query.py:714-727) for a store-backed
`select(spec, **where).sum()` query. -/
def sumPlan (s : NSpec) (w : Wh) : List ExecStep :=
  [.getattrSelect, .callArgs s w, .applyAgg .sumA]

/-- `BaseQuery._optimize` (query.py:729-771), the aggregate rewrite: when
the plan starts with "fetch `_select`", "call it", "apply a known
aggregate", replace the prefix with "fetch `_select_aggregate`", "call it
with the SQL function name prepended to the original args", keeping any
remaining steps; otherwise no optimization (the `_select_distinct` rewrite
is not needed by this claim and is omitted). -/
def _optimize (plan : List ExecStep) : Option (List ExecStep) :=
  match plan with
  | .getattrSelect :: step1 :: .applyAgg f :: rest =>
      match step1 with
      | .callArgs s w =>
          some (.getattrSelectAggregate :: .callAggArgs (sqlNameOf f) s w :: rest)
      | _ => none
  | _ => none

/-- Data values flowing through plan interpretation: a flat `Result`, a
grouped (mapping) `Result`, a scalar, or a mapping of scalars. -/
inductive PipeVal where
  | flatV (vs : List Value)
  | groupedV (es : List (Value × List Value))
  | scalarV (v : Value)
  | mappingV (es : List (Value × Value))
  deriving DecidableEq

/-- The evolving result during plan interpretation: the store itself, a
bound store method, or data. -/
inductive Interp where
  | storeI (t : Table)
  | selMethod (t : Table)
  | selAggMethod (t : Table)
  | dataI (p : PipeVal)

/-- One interpretation step (the loop of `execute`, query.py:798-805).
`_select_aggregate` is modelled for the SQL name `'SUM'` (the one this
claim's plans produce); the pure-aggregate step is modelled for
`_sqlite_sum` likewise. -/
def runStep (i : Interp) (st : ExecStep) : Except PyErr Interp :=
  match i, st with
  | .storeI t, .getattrSelect => .ok (.selMethod t)
  | .storeI t, .getattrSelectAggregate => .ok (.selAggMethod t)
  | .selMethod t, .callArgs s w =>
      match s.key with
      | none => .ok (.dataI (.flatV (selectFlat t s w)))
      | some kIn =>
          .ok (.dataI (.groupedV ((selectGrouped t s w).map (fun g =>
            (formatCells kIn g.1,
              g.2.map (fun r => formatCells s.value (valCellsOf s.nk r)))))))
  | .selAggMethod t, .callAggArgs fname s w =>
      if fname = "SUM" then
        match s.key with
        | none => do
            let sums ← aggRow s (projRows t s w)
            pure (.dataI (.scalarV (formatCells s.value sums)))
        | some kIn => do
            let es ← (groupsOf s.nk (projRows t s w)).mapM (fun g => do
                let sums ← aggRow s g.2
                pure (formatCells kIn g.1, formatCells s.value sums))
            pure (.dataI (.mappingV es))
      else .error .typeError
  | .dataI (.flatV vs), .applyAgg .sumA => do
      let q ← _sqlite_sum vs
      pure (.dataI (.scalarV (renderSum q)))
  | .dataI (.groupedV es), .applyAgg .sumA => do
      let es2 ← es.mapM (fun e => do
          let q ← _sqlite_sum e.2
          pure (e.1, renderSum q))
      pure (.dataI (.mappingV es2))
  | _, _ => .error .typeError

/-- Interpret a plan left to right, threading the evolving result
(query.py:798-805). -/
def runPlan (t : Table) (plan : List ExecStep) : Except PyErr Interp :=
  plan.foldlM runStep (Interp.storeI t)

/-- `BaseQuery.execute` for a store-backed `select(spec, **where).sum()`
query (query.py:794-807): build the plan, rewrite it when optimization is
enabled and the optimizer fires, then interpret it. -/
def executeSum (t : Table) (s : NSpec) (w : Wh) (optimize : Bool) :
    Except PyErr Interp :=
  let plan := sumPlan s w
  runPlan t (if optimize then (_optimize plan).getD plan else plan)

/-- Counterexample to C1 as stated: for the multi-field selection
`('A','B')` over a one-row table, the unoptimized plan applies
`_sqlite_sum` to row *tuples* and raises `TypeError` (`float(tuple)`),
while the optimized plan computes `SELECT SUM("A"), SUM("B")` and returns
a tuple of the two column sums — the two paths are not equal. -/
theorem C1_counterexample :
    executeSum ⟨["A", "B"], [[Value.num 1, Value.num 2]]⟩
        ⟨none, .tupI ["A", "B"], false⟩ [] false = .error .typeError
    ∧ (∃ v, executeSum ⟨["A", "B"], [[Value.num 1, Value.num 2]]⟩
        ⟨none, .tupI ["A", "B"], false⟩ [] true = .ok v)
    ∧ executeSum ⟨["A", "B"], [[Value.num 1, Value.num 2]]⟩
        ⟨none, .tupI ["A", "B"], false⟩ [] true
      ≠ executeSum ⟨["A", "B"], [[Value.num 1, Value.num 2]]⟩
        ⟨none, .tupI ["A", "B"], false⟩ [] false := by
  have h1 : executeSum ⟨["A", "B"], [[Value.num 1, Value.num 2]]⟩
      ⟨none, .tupI ["A", "B"], false⟩ [] false = .error .typeError := rfl
  have h2 : ∃ v, executeSum ⟨["A", "B"], [[Value.num 1, Value.num 2]]⟩
      ⟨none, .tupI ["A", "B"], false⟩ [] true = .ok v := ⟨_, rfl⟩
  refine ⟨h1, h2, ?_⟩
  obtain ⟨v, hv⟩ := h2
  rw [h1, hv]
  simp

theorem takeWhile_append_all {α : Type} {p : α → Bool} :
    ∀ l1 l2 : List α, (∀ x ∈ l1, p x = true) →
      (l1 ++ l2).takeWhile p = l1 ++ l2.takeWhile p := by
  intro l1
  induction l1 with
  | nil => intro l2 _; rfl
  | cons a l1 ih =>
      intro l2 h
      rw [List.cons_append, List.takeWhile_cons, h a (by simp), List.cons_append,
        ih l2 (fun x hx => h x (by simp [hx]))]
      simp

theorem dropWhile_append_all {α : Type} {p : α → Bool} :
    ∀ l1 l2 : List α, (∀ x ∈ l1, p x = true) →
      (l1 ++ l2).dropWhile p = l2.dropWhile p := by
  intro l1
  induction l1 with
  | nil => intro l2 _; rfl
  | cons a l1 ih =>
      intro l2 h
      rw [List.cons_append, List.dropWhile_cons, if_pos (h a (by simp))]
      exact ih l2 (fun x hx => h x (by simp [hx]))

theorem takeWhile_eq_nil_of_none {α : Type} {p : α → Bool} :
    ∀ l : List α, (∀ x ∈ l, p x = false) → l.takeWhile p = [] := by
  intro l h
  cases l with
  | nil => rfl
  | cons a l =>
      rw [List.takeWhile_cons, h a (by simp)]
      simp

theorem dropWhile_eq_self_of_none {α : Type} {p : α → Bool} :
    ∀ l : List α, (∀ x ∈ l, p x = false) → l.dropWhile p = l := by
  intro l h
  cases l with
  | nil => rfl
  | cons a l => rw [List.dropWhile_cons, if_neg (by simp [h a (by simp)])]

theorem insertKeySorted_perm (k : List Value) :
    ∀ l, List.Perm (insertKeySorted k l) (k :: l) := by
  intro l
  induction l with
  | nil => exact List.Perm.refl _
  | cons j js ih =>
      rw [insertKeySorted]
      by_cases h : keyListLt k j = true
      · rw [if_pos h]
      · rw [if_neg h]
        exact (List.Perm.cons j ih).trans (List.Perm.swap k j js)

theorem sortKeys_perm : ∀ l, List.Perm (sortKeys l) l := by
  intro l
  induction l with
  | nil => exact List.Perm.refl _
  | cons k ks ih =>
      rw [sortKeys]
      exact (insertKeySorted_perm k (sortKeys ks)).trans (List.Perm.cons k ih)

theorem dedupKeys_sub : ∀ (l seen : List (List Value)) (x : List Value),
    x ∈ dedupKeys seen l → x ∈ l ∧ x ∉ seen := by
  intro l
  induction l with
  | nil => intro seen x h; cases h
  | cons k ks ih =>
      intro seen x h
      rw [dedupKeys] at h
      by_cases hk : k ∈ seen
      · rw [if_pos hk] at h
        have := ih seen x h
        exact ⟨by simp [this.1], this.2⟩
      · rw [if_neg hk] at h
        rcases List.mem_cons.mp h with rfl | h2
        · exact ⟨by simp, hk⟩
        · have := ih (k :: seen) x h2
          refine ⟨by simp [this.1], fun hx => this.2 (by simp [hx])⟩

theorem dedupKeys_complete : ∀ (l seen : List (List Value)) (x : List Value),
    x ∈ l → x ∉ seen → x ∈ dedupKeys seen l := by
  intro l
  induction l with
  | nil => intro seen x h; cases h
  | cons k ks ih =>
      intro seen x hx hns
      rw [dedupKeys]
      by_cases hk : k ∈ seen
      · rw [if_pos hk]
        rcases List.mem_cons.mp hx with rfl | h2
        · exact absurd hk hns
        · exact ih seen x h2 hns
      · rw [if_neg hk]
        rcases List.mem_cons.mp hx with rfl | h2
        · exact List.mem_cons_self _ _
        · by_cases hxk : x = k
          · subst hxk; exact List.mem_cons_self _ _
          · exact List.mem_cons_of_mem _
              (ih (k :: seen) x h2 (by simp [hxk, hns]))

theorem dedupKeys_nodup : ∀ (l seen : List (List Value)),
    (dedupKeys seen l).Nodup := by
  intro l
  induction l with
  | nil => intro seen; exact List.nodup_nil
  | cons k ks ih =>
      intro seen
      rw [dedupKeys]
      by_cases hk : k ∈ seen
      · rw [if_pos hk]; exact ih seen
      · rw [if_neg hk]
        refine List.nodup_cons.mpr ⟨?_, ih (k :: seen)⟩
        intro hmem
        exact (dedupKeys_sub ks (k :: seen) k hmem).2 (by simp)

theorem groupbyAdj_cons (nk : Nat) (r : Row) (rs : List Row) :
    groupbyAdj nk (r :: rs)
      = (rowKey nk r, r :: rs.takeWhile (fun x => rowKey nk x == rowKey nk r))
        :: groupbyAdj nk (rs.dropWhile (fun x => rowKey nk x == rowKey nk r)) := by
  rw [groupbyAdj]

theorem groupbyAdj_blocks (nk : Nat) (rows : List Row) :
    ∀ ks : List (List Value), ks.Nodup →
    (∀ k ∈ ks, rows.filter (fun r => rowKey nk r == k) ≠ []) →
    groupbyAdj nk (ks.flatMap (fun k => rows.filter (fun r => rowKey nk r == k)))
      = ks.map (fun k => (k, rows.filter (fun r => rowKey nk r == k))) := by
  intro ks
  induction ks with
  | nil => intro _ _; simp [groupbyAdj]
  | cons k ks ih =>
      intro hnd hne
      have hblock : rows.filter (fun r => rowKey nk r == k) ≠ [] := hne k (by simp)
      obtain ⟨r0, rb, hB⟩ : ∃ r0 rb,
          rows.filter (fun r => rowKey nk r == k) = r0 :: rb := by
        cases hB : rows.filter (fun r => rowKey nk r == k) with
        | nil => exact absurd hB hblock
        | cons a b => exact ⟨a, b, rfl⟩
      have hkeyr0 : rowKey nk r0 = k := by
        have hmem : r0 ∈ rows.filter (fun r => rowKey nk r == k) := by
          rw [hB]; simp
        simpa using List.of_mem_filter hmem
      have hkeyblock : ∀ x ∈ rb, (rowKey nk x == rowKey nk r0) = true := by
        intro x hx
        have hmem : x ∈ rows.filter (fun r => rowKey nk r == k) := by
          rw [hB]; simp [hx]
        rw [hkeyr0]
        simpa using List.of_mem_filter hmem
      have hrest : ∀ x ∈ ks.flatMap (fun j => rows.filter (fun r => rowKey nk r == j)),
          (rowKey nk x == rowKey nk r0) = false := by
        intro x hx
        rw [List.mem_flatMap] at hx
        obtain ⟨j, hj, hxj⟩ := hx
        have hkx : rowKey nk x = j := by simpa using List.of_mem_filter hxj
        have hjk : j ≠ k := by
          rintro rfl
          exact (List.nodup_cons.mp hnd).1 hj
        rw [hkeyr0, hkx]
        simpa using hjk
      rw [List.flatMap_cons, hB, List.cons_append, groupbyAdj_cons]
      rw [takeWhile_append_all rb _ hkeyblock, takeWhile_eq_nil_of_none _ hrest,
        dropWhile_append_all rb _ hkeyblock, dropWhile_eq_self_of_none _ hrest]
      rw [hkeyr0, List.append_nil, List.map_cons]
      congr 1
      · rw [hB]
      · exact ih (List.nodup_cons.mp hnd).2 (fun j hj => hne j (by simp [hj]))

theorem groupbyAdj_orderBy (nk : Nat) (rows : List Row) :
    groupbyAdj nk (orderByKey nk rows) = groupsOf nk rows := by
  unfold orderByKey groupsOf
  rw [List.flatMap_map]
  apply groupbyAdj_blocks
  · exact ((sortKeys_perm _).nodup_iff).mpr (dedupKeys_nodup _ [])
  · intro k hk hnil
    have hk2 : k ∈ dedupKeys [] (rows.map (rowKey nk)) :=
      ((sortKeys_perm _).mem_iff).mp hk
    have hk3 : k ∈ rows.map (rowKey nk) := (dedupKeys_sub _ _ _ hk2).1
    obtain ⟨r, hr, rfl⟩ := List.mem_map.mp hk3
    have hmem : r ∈ rows.filter (fun x => rowKey nk x == rowKey nk r) :=
      List.mem_filter.mpr ⟨hr, by simp⟩
    rw [hnil] at hmem
    cases hmem

theorem headD_eq_getD (l : List Value) (d : Value) : l.headD d = l.getD 0 d := by
  cases l <;> rfl

theorem mapM_congr_except {α β : Type} (f g : α → Except PyErr β) :
    ∀ l : List α, (∀ x ∈ l, f x = g x) → l.mapM f = l.mapM g := by
  intro l
  induction l with
  | nil => intro _; rfl
  | cons a l ih =>
      intro h
      rw [List.mapM_cons, List.mapM_cons, h a (by simp),
        ih (fun x hx => h x (by simp [hx]))]

theorem mapM_map_except {α β γ : Type} (f : α → β) (g : β → Except PyErr γ) :
    ∀ l : List α, (l.map f).mapM g = l.mapM (fun x => g (f x)) := by
  intro l
  induction l with
  | nil => rfl
  | cons a l ih => rw [List.map_cons, List.mapM_cons, List.mapM_cons, ih]

theorem cast_eq_spec (v : Value) : _sqlite_cast_as_real v = spec_castReal v := by
  cases v <;> simp [_sqlite_cast_as_real, spec_castReal]
  rename_i s
  cases h : parsePyFloat s <;> simp [h]

theorem sum_eq_spec (xs : List Value) : _sqlite_sum xs = spec_SUM xs := by
  unfold _sqlite_sum spec_SUM
  rw [mapM_congr_except _ _ _ (fun x _ => cast_eq_spec x)]
  cases h : (xs.filter (fun x => x != Value.null)).mapM spec_castReal with
  | error e => rfl
  | ok rs =>
      cases rs with
      | nil => rfl
      | cons c cs =>
          show Except.ok (some (cs.foldl (· + ·) c))
            = if (c :: cs).isEmpty then pure none else pure (some (c :: cs).sum)
          simp [List.isEmpty_cons, foldl_add_eq_sum, List.sum_cons]
          rfl

theorem dedupRows_map_key (nk : Nat) : ∀ (rows seenR : List Row)
    (seenK : List (List Value)),
    (∀ k, k ∈ seenK ↔ ∃ r ∈ seenR, rowKey nk r = k) →
    dedupKeys seenK ((dedupRows seenR rows).map (rowKey nk))
      = dedupKeys seenK (rows.map (rowKey nk)) := by
  intro rows
  induction rows with
  | nil => intro seenR seenK _; rfl
  | cons r rs ih =>
      intro seenR seenK hinv
      rw [dedupRows]
      by_cases hr : r ∈ seenR
      · rw [if_pos hr]
        have hk : rowKey nk r ∈ seenK := (hinv _).mpr ⟨r, hr, rfl⟩
        rw [List.map_cons, dedupKeys, if_pos hk]
        exact ih seenR seenK hinv
      · rw [if_neg hr, List.map_cons, List.map_cons]
        by_cases hkk : rowKey nk r ∈ seenK
        · rw [dedupKeys, if_pos hkk, dedupKeys, if_pos hkk]
          refine ih (r :: seenR) seenK (fun k => ⟨?_, ?_⟩)
          · intro hksn
            obtain ⟨r', hr', hkr'⟩ := (hinv k).mp hksn
            exact ⟨r', by simp [hr'], hkr'⟩
          · rintro ⟨r', hr', hkr'⟩
            rcases List.mem_cons.mp hr' with rfl | hr2
            · rw [← hkr']; exact hkk
            · exact (hinv k).mpr ⟨r', hr2, hkr'⟩
        · rw [dedupKeys, if_neg hkk, dedupKeys, if_neg hkk]
          congr 1
          refine ih (r :: seenR) (rowKey nk r :: seenK) (fun k => ⟨?_, ?_⟩)
          · intro hksn
            rcases List.mem_cons.mp hksn with rfl | h2
            · exact ⟨r, by simp, rfl⟩
            · obtain ⟨r', hr', hkr'⟩ := (hinv k).mp h2
              exact ⟨r', by simp [hr'], hkr'⟩
          · rintro ⟨r', hr', hkr'⟩
            rcases List.mem_cons.mp hr' with rfl | hr2
            · rw [← hkr']; simp
            · exact List.mem_cons_of_mem _ ((hinv k).mpr ⟨r', hr2, hkr'⟩)

theorem dedupRows_filter (p : Row → Bool) : ∀ (rows seen : List Row),
    (dedupRows seen rows).filter p
      = dedupRows (seen.filter p) (rows.filter p) := by
  intro rows
  induction rows with
  | nil => intro seen; rfl
  | cons r rs ih =>
      intro seen
      rw [dedupRows, List.filter_cons]
      by_cases hr : r ∈ seen
      · rw [if_pos hr]
        by_cases hp : p r = true
        · rw [hp]
          have hrf : r ∈ seen.filter p := List.mem_filter.mpr ⟨hr, hp⟩
          rw [if_pos rfl]
          show (dedupRows seen rs).filter p
            = dedupRows (seen.filter p) (r :: rs.filter p)
          rw [dedupRows, if_pos hrf]
          exact ih seen
        · have hp2 : p r = false := by
            cases hb : p r with
            | true => exact absurd hb hp
            | false => rfl
          rw [hp2]
          simp only [Bool.false_eq_true, if_false]
          exact ih seen
      · rw [if_neg hr]
        by_cases hp : p r = true
        · rw [hp]
          have hrf : r ∉ seen.filter p := fun hmem =>
            hr (List.mem_filter.mp hmem).1
          rw [if_pos rfl, List.filter_cons, hp, if_pos rfl]
          show r :: (dedupRows (r :: seen) rs).filter p
            = dedupRows (seen.filter p) (r :: rs.filter p)
          rw [dedupRows, if_neg hrf]
          congr 1
          have := ih (r :: seen)
          rw [this, List.filter_cons, hp, if_pos rfl]
        · have hp2 : p r = false := by
            cases hb : p r with
            | true => exact absurd hb hp
            | false => rfl
          rw [List.filter_cons, hp2]
          simp only [Bool.false_eq_true, if_false]
          have := ih (r :: seen)
          rw [this, List.filter_cons, hp2]
          simp only [Bool.false_eq_true, if_false]

/-- The single value cell of a projected row (for single-field value
specs). -/
def cellOf (nk : Nat) (r : Row) : Value := (r.drop nk).getD 0 Value.null

theorem cellOf_append (nk : Nat) (k : List Value) (c : Value)
    (hk : k.length = nk) : cellOf nk (k ++ [c]) = c := by
  unfold cellOf
  rw [← hk, List.drop_left]
  rfl

theorem dedupRows_map_cellOf (nk : Nat) (k : List Value) (hk : k.length = nk) :
    ∀ (g seen : List Row), (∀ r ∈ g, ∃ c, r = k ++ [c]) →
      (∀ r ∈ seen, ∃ c, r = k ++ [c]) →
      (dedupRows seen g).map (cellOf nk)
        = dedupVals (seen.map (cellOf nk)) (g.map (cellOf nk)) := by
  intro g
  induction g with
  | nil => intro seen _ _; rfl
  | cons r rs ih =>
      intro seen hg hs
      obtain ⟨c, rfl⟩ := hg r (by simp)
      have hmemIff : (k ++ [c]) ∈ seen ↔ cellOf nk (k ++ [c]) ∈ seen.map (cellOf nk) := by
        constructor
        · intro hmem
          exact List.mem_map_of_mem _ hmem
        · intro hmem
          obtain ⟨r', hr', hcr'⟩ := List.mem_map.mp hmem
          obtain ⟨c', rfl⟩ := hs r' hr'
          rw [cellOf_append nk k c' hk, cellOf_append nk k c hk] at hcr'
          rw [← hcr']
          exact hr'
      rw [dedupRows, List.map_cons]
      by_cases hmem : (k ++ [c]) ∈ seen
      · rw [if_pos hmem, dedupVals, if_pos (hmemIff.mp hmem)]
        exact ih seen (fun x hx => hg x (by simp [hx])) hs
      · rw [if_neg hmem, dedupVals,
          if_neg (fun hmem2 => hmem (hmemIff.mpr hmem2)), List.map_cons]
        congr 1
        have := ih ((k ++ [c]) :: seen) (fun x hx => hg x (by simp [hx]))
          (fun x hx => by
            rcases List.mem_cons.mp hx with rfl | hx2
            · exact ⟨c, rfl⟩
            · exact hs x hx2)
        rw [this, List.map_cons]

theorem groupsOf_dedup (nk : Nat) (P : List Row) :
    groupsOf nk (dedupRows [] P)
      = (groupsOf nk P).map (fun g => (g.1, dedupRows [] g.2)) := by
  unfold groupsOf
  rw [dedupRows_map_key nk P [] [] (by simp), List.map_map]
  apply List.map_congr_left
  intro k _
  show (k, (dedupRows [] P).filter (fun r => rowKey nk r == k))
    = (k, dedupRows [] (P.filter (fun r => rowKey nk r == k)))
  rw [dedupRows_filter]
  rfl

theorem projRows_shape (t : Table) (s : NSpec) (w : Wh)
    (hf : s.valCols.length = 1) :
    ∀ r ∈ projRows t s w, r.length = s.nk + 1 := by
  intro r hr
  unfold projRows at hr
  obtain ⟨r0, _, rfl⟩ := List.mem_map.mp hr
  unfold projectRow
  simp [NSpec.nk, hf]

theorem group_row_shape (nk : Nat) (k : List Value) (r : Row)
    (hlen : r.length = nk + 1) (hkey : rowKey nk r = k) :
    ∃ c, r = k ++ [c] := by
  have hdropLen : (r.drop nk).length = 1 := by simp [hlen]
  obtain ⟨c, hc⟩ : ∃ c, r.drop nk = [c] := by
    cases hd : r.drop nk with
    | nil => rw [hd] at hdropLen; cases hdropLen
    | cons c cs =>
        cases cs with
        | nil => exact ⟨c, rfl⟩
        | cons d ds => rw [hd] at hdropLen; simp at hdropLen
  refine ⟨c, ?_⟩
  rw [← hkey]
  unfold rowKey
  rw [← hc, List.take_append_drop]

theorem formatCells_fld_eq_cellOf_zero (f : String) (r : Row) :
    formatCells (.fldI f) r = cellOf 0 r := by
  show r.headD Value.null = (r.drop 0).getD 0 Value.null
  rw [List.drop_zero, headD_eq_getD]

theorem formatCells_fld_valCells (f : String) (nk : Nat) (r : Row) :
    formatCells (.fldI f) (valCellsOf nk r) = cellOf nk r := by
  show (r.drop nk).headD Value.null = (r.drop nk).getD 0 Value.null
  rw [headD_eq_getD]

theorem singleton_row_shape (r : Row) (hlen : r.length = 1) :
    ∃ c, r = [] ++ [c] :=
  group_row_shape 0 [] r (by simpa using hlen) rfl

theorem groupsOf_mem_shape (nk : Nat) (P : List Row)
    (hlen : ∀ r ∈ P, r.length = nk + 1) :
    ∀ g ∈ groupsOf nk P, g.1.length = nk ∧ ∀ r ∈ g.2, ∃ c, r = g.1 ++ [c] := by
  intro g hg
  unfold groupsOf at hg
  obtain ⟨k, hk, rfl⟩ := List.mem_map.mp hg
  constructor
  · have hmem : k ∈ P.map (rowKey nk) :=
      (dedupKeys_sub _ _ _ (((sortKeys_perm _).mem_iff).mp hk)).1
    obtain ⟨r, hr, rfl⟩ := List.mem_map.mp hmem
    unfold rowKey
    rw [List.length_take, hlen r hr]
    omega
  · intro r hr
    have hmem := List.mem_filter.mp hr
    have hkey : rowKey nk r = k := by simpa using hmem.2
    exact group_row_shape nk _ r (hlen r hmem.1) hkey

theorem aggRow_fld_false (kO : Option VInner) (f : String) (rows : List Row) :
    aggRow ⟨kO, .fldI f, false⟩ rows
      = Except.bind (spec_SUM (rows.map (cellOf (NSpec.nk ⟨kO, .fldI f, false⟩))))
          (fun q => Except.ok [renderSum q]) := by
  show Except.bind
      (Except.bind (spec_SUM (rows.map (cellOf (NSpec.nk ⟨kO, .fldI f, false⟩))))
        (fun q => Except.ok (renderSum q)))
      (fun v => Except.ok [v]) = _
  cases spec_SUM (rows.map (cellOf (NSpec.nk ⟨kO, .fldI f, false⟩))) <;> rfl

theorem aggRow_fld_true (kO : Option VInner) (f : String) (rows : List Row) :
    aggRow ⟨kO, .fldI f, true⟩ rows
      = Except.bind (spec_SUM (dedupVals []
            (rows.map (cellOf (NSpec.nk ⟨kO, .fldI f, true⟩)))))
          (fun q => Except.ok [renderSum q]) := by
  show Except.bind
      (Except.bind (spec_SUM (dedupVals []
          (rows.map (cellOf (NSpec.nk ⟨kO, .fldI f, true⟩)))))
        (fun q => Except.ok (renderSum q)))
      (fun v => Except.ok [v]) = _
  cases spec_SUM (dedupVals []
    (rows.map (cellOf (NSpec.nk ⟨kO, .fldI f, true⟩)))) <;> rfl

theorem sumGroup_flat_eq (kIn : VInner) (f : String) (kv : Value)
    (rows : List Row) :
    Except.bind (aggRow ⟨some kIn, .fldI f, false⟩ rows)
        (fun sums => Except.ok (kv, formatCells (.fldI f) sums))
      = Except.bind (_sqlite_sum (rows.map
          (fun r => formatCells (.fldI f)
            (valCellsOf (NSpec.nk ⟨some kIn, .fldI f, false⟩) r))))
        (fun q => Except.ok (kv, renderSum q)) := by
  have hmap : rows.map (fun r => formatCells (.fldI f)
      (valCellsOf (NSpec.nk ⟨some kIn, .fldI f, false⟩) r))
      = rows.map (cellOf (NSpec.nk ⟨some kIn, .fldI f, false⟩)) :=
    List.map_congr_left (fun r _ => formatCells_fld_valCells f _ r)
  rw [hmap, sum_eq_spec, aggRow_fld_false]
  cases spec_SUM (rows.map
    (cellOf (NSpec.nk ⟨some kIn, .fldI f, false⟩))) <;> rfl

theorem sumGroup_dedup_eq (kIn : VInner) (f : String) (kv : Value)
    (k : List Value) (rows : List Row)
    (hk : k.length = NSpec.nk ⟨some kIn, .fldI f, true⟩)
    (hsh : ∀ r ∈ rows, ∃ c, r = k ++ [c]) :
    Except.bind (aggRow ⟨some kIn, .fldI f, true⟩ rows)
        (fun sums => Except.ok (kv, formatCells (.fldI f) sums))
      = Except.bind (_sqlite_sum ((dedupRows [] rows).map
          (fun r => formatCells (.fldI f)
            (valCellsOf (NSpec.nk ⟨some kIn, .fldI f, true⟩) r))))
        (fun q => Except.ok (kv, renderSum q)) := by
  have hmap : (dedupRows [] rows).map (fun r => formatCells (.fldI f)
      (valCellsOf (NSpec.nk ⟨some kIn, .fldI f, true⟩) r))
      = (dedupRows [] rows).map (cellOf (NSpec.nk ⟨some kIn, .fldI f, true⟩)) :=
    List.map_congr_left (fun r _ => formatCells_fld_valCells f _ r)
  have hdd : (dedupRows [] rows).map (cellOf (NSpec.nk ⟨some kIn, .fldI f, true⟩))
      = dedupVals [] (rows.map (cellOf (NSpec.nk ⟨some kIn, .fldI f, true⟩))) := by
    have h2 := dedupRows_map_cellOf (NSpec.nk ⟨some kIn, .fldI f, true⟩) k hk
      rows [] hsh (fun r hr => absurd hr (List.not_mem_nil r))
    simpa using h2
  rw [hmap, hdd, sum_eq_spec, aggRow_fld_true]
  cases spec_SUM (dedupVals [] (rows.map
    (cellOf (NSpec.nk ⟨some kIn, .fldI f, true⟩)))) <;> rfl

/-- **C1 (amended).** For every single-field selection spec — any grouping
key, any `Set`/sequence value container — and every where-filter
combination, executing the `select(spec) → sum()` plan with optimization
disabled equals executing it with optimization enabled (the optimizer
rewriting the first three steps into a store-native `_select_aggregate`
call with the SQL function name `'SUM'` prepended to the original args). -/
theorem C1_sum_optimization_equiv (t : Table) (w : Wh) (keyO : Option VInner)
    (f : String) (b : Bool) :
    executeSum t ⟨keyO, .fldI f, b⟩ w true
      = executeSum t ⟨keyO, .fldI f, b⟩ w false := by
  cases keyO with
  | none =>
      have e1 : executeSum t ⟨none, .fldI f, b⟩ w true
          = Except.bind (aggRow ⟨none, .fldI f, b⟩ (projRows t ⟨none, .fldI f, b⟩ w))
              (fun sums => Except.ok (Interp.dataI (PipeVal.scalarV
                (formatCells (.fldI f) sums)))) := by
        show Except.bind
            (Except.bind (aggRow ⟨none, .fldI f, b⟩ (projRows t ⟨none, .fldI f, b⟩ w))
              (fun sums => Except.ok (Interp.dataI (PipeVal.scalarV
                (formatCells (.fldI f) sums)))))
            (fun s' => Except.ok s') = _
        cases aggRow ⟨none, .fldI f, b⟩ (projRows t ⟨none, .fldI f, b⟩ w) <;> rfl
      have e2 : executeSum t ⟨none, .fldI f, b⟩ w false
          = Except.bind (_sqlite_sum (selectFlat t ⟨none, .fldI f, b⟩ w))
              (fun q => Except.ok (Interp.dataI (PipeVal.scalarV (renderSum q)))) := by
        show Except.bind
            (Except.bind (_sqlite_sum (selectFlat t ⟨none, .fldI f, b⟩ w))
              (fun q => Except.ok (Interp.dataI (PipeVal.scalarV (renderSum q)))))
            (fun s' => Except.ok s') = _
        cases _sqlite_sum (selectFlat t ⟨none, .fldI f, b⟩ w) <;> rfl
      have hcells : selectFlat t ⟨none, .fldI f, b⟩ w
          = (if b then
              dedupVals [] ((projRows t ⟨none, .fldI f, b⟩ w).map (cellOf 0))
            else (projRows t ⟨none, .fldI f, b⟩ w).map (cellOf 0)) := by
        show ((if b then dedupRows [] (projRows t ⟨none, .fldI f, b⟩ w)
            else projRows t ⟨none, .fldI f, b⟩ w).map (formatCells (.fldI f))) = _
        cases b with
        | false =>
            simp only [Bool.false_eq_true, if_false]
            exact List.map_congr_left
              (fun r _ => formatCells_fld_eq_cellOf_zero f r)
        | true =>
            simp only [if_true]
            rw [List.map_congr_left
              (fun r _ => formatCells_fld_eq_cellOf_zero f r)]
            rw [dedupRows_map_cellOf 0 [] rfl _ []
              (fun r hr => singleton_row_shape r
                (projRows_shape t ⟨none, .fldI f, true⟩ w rfl r hr))
              (fun r hr => absurd hr (List.not_mem_nil r))]
            rfl
      have hAgg : aggRow ⟨none, .fldI f, b⟩ (projRows t ⟨none, .fldI f, b⟩ w)
          = Except.bind (spec_SUM (if b then
                dedupVals [] ((projRows t ⟨none, .fldI f, b⟩ w).map (cellOf 0))
              else (projRows t ⟨none, .fldI f, b⟩ w).map (cellOf 0)))
              (fun q => .ok [renderSum q]) := by
        show Except.bind
            (Except.bind (spec_SUM (if b then
                dedupVals [] ((projRows t ⟨none, .fldI f, b⟩ w).map (cellOf 0))
              else (projRows t ⟨none, .fldI f, b⟩ w).map (cellOf 0)))
              (fun q => .ok (renderSum q)))
            (fun v => .ok [v]) = _
        cases hq : spec_SUM (if b then
            dedupVals [] ((projRows t ⟨none, .fldI f, b⟩ w).map (cellOf 0))
          else (projRows t ⟨none, .fldI f, b⟩ w).map (cellOf 0)) with
        | error e => rfl
        | ok q => rfl
      rw [e1, e2, hcells, sum_eq_spec, hAgg]
      cases hq : spec_SUM (if b then
          dedupVals [] ((projRows t ⟨none, .fldI f, b⟩ w).map (cellOf 0))
        else (projRows t ⟨none, .fldI f, b⟩ w).map (cellOf 0)) with
      | error e => rfl
      | ok q => rfl
  | some kIn =>
      cases b with
      | false =>
          have e1 : executeSum t ⟨some kIn, .fldI f, false⟩ w true
              = Except.bind
                  ((groupsOf (NSpec.nk ⟨some kIn, .fldI f, false⟩)
                      (projRows t ⟨some kIn, .fldI f, false⟩ w)).mapM
                    (fun g => Except.bind (aggRow ⟨some kIn, .fldI f, false⟩ g.2)
                      (fun sums => Except.ok
                        (formatCells kIn g.1, formatCells (.fldI f) sums))))
                  (fun es => Except.ok (Interp.dataI (PipeVal.mappingV es))) := by
            show Except.bind
                (Except.bind
                  ((groupsOf (NSpec.nk ⟨some kIn, .fldI f, false⟩)
                      (projRows t ⟨some kIn, .fldI f, false⟩ w)).mapM
                    (fun g => Except.bind (aggRow ⟨some kIn, .fldI f, false⟩ g.2)
                      (fun sums => Except.ok
                        (formatCells kIn g.1, formatCells (.fldI f) sums))))
                  (fun es => Except.ok (Interp.dataI (PipeVal.mappingV es))))
                (fun s' => Except.ok s') = _
            cases (groupsOf (NSpec.nk ⟨some kIn, .fldI f, false⟩)
                (projRows t ⟨some kIn, .fldI f, false⟩ w)).mapM
              (fun g => Except.bind (aggRow ⟨some kIn, .fldI f, false⟩ g.2)
                (fun sums => Except.ok
                  (formatCells kIn g.1, formatCells (.fldI f) sums))) <;> rfl
          have e2 : executeSum t ⟨some kIn, .fldI f, false⟩ w false
              = Except.bind
                  (((selectGrouped t ⟨some kIn, .fldI f, false⟩ w).map
                      (fun g => (formatCells kIn g.1,
                        g.2.map (fun r => formatCells (.fldI f)
                          (valCellsOf (NSpec.nk ⟨some kIn, .fldI f, false⟩) r))))).mapM
                    (fun e => Except.bind (_sqlite_sum e.2)
                      (fun q => Except.ok (e.1, renderSum q))))
                  (fun es => Except.ok (Interp.dataI (PipeVal.mappingV es))) := by
            show Except.bind
                (Except.bind
                  (((selectGrouped t ⟨some kIn, .fldI f, false⟩ w).map
                      (fun g => (formatCells kIn g.1,
                        g.2.map (fun r => formatCells (.fldI f)
                          (valCellsOf (NSpec.nk ⟨some kIn, .fldI f, false⟩) r))))).mapM
                    (fun e => Except.bind (_sqlite_sum e.2)
                      (fun q => Except.ok (e.1, renderSum q))))
                  (fun es => Except.ok (Interp.dataI (PipeVal.mappingV es))))
                (fun s' => Except.ok s') = _
            cases ((selectGrouped t ⟨some kIn, .fldI f, false⟩ w).map
                (fun g => (formatCells kIn g.1,
                  g.2.map (fun r => formatCells (.fldI f)
                    (valCellsOf (NSpec.nk ⟨some kIn, .fldI f, false⟩) r))))).mapM
              (fun e => Except.bind (_sqlite_sum e.2)
                (fun q => Except.ok (e.1, renderSum q))) <;> rfl
          have hG : selectGrouped t ⟨some kIn, .fldI f, false⟩ w
              = groupsOf (NSpec.nk ⟨some kIn, .fldI f, false⟩)
                  (projRows t ⟨some kIn, .fldI f, false⟩ w) := by
            show groupbyAdj (NSpec.nk ⟨some kIn, .fldI f, false⟩)
                (orderByKey (NSpec.nk ⟨some kIn, .fldI f, false⟩)
                  (projRows t ⟨some kIn, .fldI f, false⟩ w)) = _
            exact groupbyAdj_orderBy _ _
          rw [e1, e2, hG, mapM_map_except]
          refine congrArg (fun m => Except.bind m
            (fun es => Except.ok (Interp.dataI (PipeVal.mappingV es)))) ?_
          apply mapM_congr_except
          intro g hg
          show Except.bind (aggRow ⟨some kIn, .fldI f, false⟩ g.2)
              (fun sums => Except.ok
                (formatCells kIn g.1, formatCells (.fldI f) sums))
            = Except.bind (_sqlite_sum (g.2.map (fun r => formatCells (.fldI f)
                (valCellsOf (NSpec.nk ⟨some kIn, .fldI f, false⟩) r))))
              (fun q => Except.ok (formatCells kIn g.1, renderSum q))
          exact sumGroup_flat_eq kIn f (formatCells kIn g.1) g.2
      | true =>
          have e1 : executeSum t ⟨some kIn, .fldI f, true⟩ w true
              = Except.bind
                  ((groupsOf (NSpec.nk ⟨some kIn, .fldI f, true⟩)
                      (projRows t ⟨some kIn, .fldI f, true⟩ w)).mapM
                    (fun g => Except.bind (aggRow ⟨some kIn, .fldI f, true⟩ g.2)
                      (fun sums => Except.ok
                        (formatCells kIn g.1, formatCells (.fldI f) sums))))
                  (fun es => Except.ok (Interp.dataI (PipeVal.mappingV es))) := by
            show Except.bind
                (Except.bind
                  ((groupsOf (NSpec.nk ⟨some kIn, .fldI f, true⟩)
                      (projRows t ⟨some kIn, .fldI f, true⟩ w)).mapM
                    (fun g => Except.bind (aggRow ⟨some kIn, .fldI f, true⟩ g.2)
                      (fun sums => Except.ok
                        (formatCells kIn g.1, formatCells (.fldI f) sums))))
                  (fun es => Except.ok (Interp.dataI (PipeVal.mappingV es))))
                (fun s' => Except.ok s') = _
            cases (groupsOf (NSpec.nk ⟨some kIn, .fldI f, true⟩)
                (projRows t ⟨some kIn, .fldI f, true⟩ w)).mapM
              (fun g => Except.bind (aggRow ⟨some kIn, .fldI f, true⟩ g.2)
                (fun sums => Except.ok
                  (formatCells kIn g.1, formatCells (.fldI f) sums))) <;> rfl
          have e2 : executeSum t ⟨some kIn, .fldI f, true⟩ w false
              = Except.bind
                  (((selectGrouped t ⟨some kIn, .fldI f, true⟩ w).map
                      (fun g => (formatCells kIn g.1,
                        g.2.map (fun r => formatCells (.fldI f)
                          (valCellsOf (NSpec.nk ⟨some kIn, .fldI f, true⟩) r))))).mapM
                    (fun e => Except.bind (_sqlite_sum e.2)
                      (fun q => Except.ok (e.1, renderSum q))))
                  (fun es => Except.ok (Interp.dataI (PipeVal.mappingV es))) := by
            show Except.bind
                (Except.bind
                  (((selectGrouped t ⟨some kIn, .fldI f, true⟩ w).map
                      (fun g => (formatCells kIn g.1,
                        g.2.map (fun r => formatCells (.fldI f)
                          (valCellsOf (NSpec.nk ⟨some kIn, .fldI f, true⟩) r))))).mapM
                    (fun e => Except.bind (_sqlite_sum e.2)
                      (fun q => Except.ok (e.1, renderSum q))))
                  (fun es => Except.ok (Interp.dataI (PipeVal.mappingV es))))
                (fun s' => Except.ok s') = _
            cases ((selectGrouped t ⟨some kIn, .fldI f, true⟩ w).map
                (fun g => (formatCells kIn g.1,
                  g.2.map (fun r => formatCells (.fldI f)
                    (valCellsOf (NSpec.nk ⟨some kIn, .fldI f, true⟩) r))))).mapM
              (fun e => Except.bind (_sqlite_sum e.2)
                (fun q => Except.ok (e.1, renderSum q))) <;> rfl
          have hG : selectGrouped t ⟨some kIn, .fldI f, true⟩ w
              = (groupsOf (NSpec.nk ⟨some kIn, .fldI f, true⟩)
                  (projRows t ⟨some kIn, .fldI f, true⟩ w)).map
                (fun g => (g.1, dedupRows [] g.2)) := by
            show groupbyAdj (NSpec.nk ⟨some kIn, .fldI f, true⟩)
                (orderByKey (NSpec.nk ⟨some kIn, .fldI f, true⟩)
                  (dedupRows [] (projRows t ⟨some kIn, .fldI f, true⟩ w))) = _
            rw [groupbyAdj_orderBy, groupsOf_dedup]
          have hlen : ∀ r ∈ projRows t ⟨some kIn, .fldI f, true⟩ w,
              r.length = NSpec.nk ⟨some kIn, .fldI f, true⟩ + 1 :=
            projRows_shape t ⟨some kIn, .fldI f, true⟩ w rfl
          rw [e1, e2, hG, List.map_map, mapM_map_except]
          refine congrArg (fun m => Except.bind m
            (fun es => Except.ok (Interp.dataI (PipeVal.mappingV es)))) ?_
          apply mapM_congr_except
          intro g hg
          have hsh := groupsOf_mem_shape _ _ hlen g hg
          show Except.bind (aggRow ⟨some kIn, .fldI f, true⟩ g.2)
              (fun sums => Except.ok
                (formatCells kIn g.1, formatCells (.fldI f) sums))
            = Except.bind (_sqlite_sum ((dedupRows [] g.2).map
                (fun r => formatCells (.fldI f)
                  (valCellsOf (NSpec.nk ⟨some kIn, .fldI f, true⟩) r))))
              (fun q => Except.ok (formatCells kIn g.1, renderSum q))
          exact sumGroup_dedup_eq kIn f (formatCells kIn g.1) g.1 g.2 hsh.1 hsh.2
